import Mathlib

/-!
Verification of the tenon-ts segment/matcher evaluation engine.

This file gives a shallow embedding, in Lean, of the core data structures and
algorithms of the library: the deterministic structural serializer
`stableStringify` and the cache keys built from it (src/utils.ts), the
insertion-order JSON serializer used by the batch coalescer `DataLoader`
(src/DataLoader.ts), the per-call matcher-result cache and evaluation entry
point `_evaluateInternal` (src/wrapMatchers.ts), the logical operators
(src/operators.ts), the matcher factory (src/matcher.ts), the matcher
memoization layer (src/wrapMatchers.ts) and the segment evaluator `matches`
(src/segment.ts).  JavaScript values that matter here (matcher arguments,
batch requests) are modelled by the inductive type `Json`; JS numbers are
modelled as integers, and JSON string escaping is modelled for the two
characters (quote and backslash) that decide string delimiting.  Promises are
modelled by sequential state threading: the engine runs on a single-threaded
cooperative scheduler, so the observable behavior of each operation is a
function of the state it reads and writes.
-/

set_option autoImplicit false

namespace Tenon

mutual

/-- JSON-like runtime values: `null`, booleans, numbers (modelled as `Int`),
strings, arrays, and objects as insertion-ordered key/value lists.  Mutual
inductives are used instead of nested `List`s so that all functions below are
structurally recursive (and hence evaluable by `decide`/`rfl`). -/
inductive Json where
  | null : Json
  | bool (b : Bool) : Json
  | num (n : Int) : Json
  | str (s : String) : Json
  | arr (xs : JsonList) : Json
  | obj (kvs : JsonObj) : Json

/-- A list of JSON values (array elements, in order). -/
inductive JsonList where
  | nil : JsonList
  | cons (hd : Json) (tl : JsonList) : JsonList

/-- An insertion-ordered association list of string keys to JSON values
(a JavaScript object). -/
inductive JsonObj where
  | nil : JsonObj
  | cons (k : String) (v : Json) (tl : JsonObj) : JsonObj

end

/-- The double-quote character. -/
def quoteC : Char := Char.ofNat 34

/-- The backslash character. -/
def bslashC : Char := Char.ofNat 92

/-- The opening-brace character. -/
def lbraceC : Char := Char.ofNat 123

/-- The closing-brace character. -/
def rbraceC : Char := Char.ofNat 125

/-- The decimal digit character for `d` (defined for `d < 10`). -/
def digitChar (d : Nat) : Char :=
  match d with
  | 0 => '0'
  | 1 => '1'
  | 2 => '2'
  | 3 => '3'
  | 4 => '4'
  | 5 => '5'
  | 6 => '6'
  | 7 => '7'
  | 8 => '8'
  | _ => '9'

/-- Decimal digits of `n`, most significant first, with `fuel` bounding the
recursion depth (`fuel ≥ n` suffices).  Models the decimal rendering JS's
`JSON.stringify` performs on an integral number. -/
def natReprAux (fuel n : Nat) : List Char :=
  match fuel with
  | 0 => []
  | fuel + 1 => if n = 0 then [] else natReprAux fuel (n / 10) ++ [digitChar (n % 10)]

/-- Decimal representation of a natural number, as `String(n)` in JS. -/
def natRepr (n : Nat) : List Char :=
  if n = 0 then ['0'] else natReprAux n n

/-- Decimal representation of an integer, as `JSON.stringify(n)` in JS. -/
def intRepr (n : Int) : List Char :=
  if n < 0 then '-' :: natRepr n.natAbs else natRepr n.toNat

/-- JSON escaping of a single character inside a string literal: quote and
backslash are escaped, everything else passes through. -/
def escChar (c : Char) : List Char :=
  if c = quoteC then [bslashC, quoteC]
  else if c = bslashC then [bslashC, bslashC]
  else [c]

/-- JSON escaping of a character sequence. -/
def escStr (cs : List Char) : List Char :=
  match cs with
  | [] => []
  | c :: rest => escChar c ++ escStr rest

/-- `JSON.stringify` of a string: a quoted, escaped literal. -/
def strLit (s : String) : List Char :=
  quoteC :: escStr s.data ++ [quoteC]

/-- Lexicographic comparison of character lists by code point, modelling the
default JS string sort order used by `Object.keys(x).sort()`. -/
def charListLe : List Char → List Char → Bool
  | [], _ => true
  | _ :: _, [] => false
  | c :: cs, d :: ds =>
      if c.toNat < d.toNat then true
      else if d.toNat < c.toNat then false
      else charListLe cs ds

/-- String comparison used for key sorting. -/
def strLe (a b : String) : Bool := charListLe a.data b.data

/-- Insert a key/value pair into a key-sorted object, keeping it sorted
(stable with respect to equal keys). -/
def insertPair (k : String) (v : Json) : JsonObj → JsonObj
  | JsonObj.nil => JsonObj.cons k v JsonObj.nil
  | JsonObj.cons k2 v2 tl =>
      if strLe k k2 then JsonObj.cons k v (JsonObj.cons k2 v2 tl)
      else JsonObj.cons k2 v2 (insertPair k v tl)

/-- Insertion sort of an object's entries by key, modelling
`Object.keys(record).sort()` followed by per-key loookup of the values. -/
def sortObj : JsonObj → JsonObj
  | JsonObj.nil => JsonObj.nil
  | JsonObj.cons k v tl => insertPair k v (sortObj tl)

mutual

/-- `stableStringify` from src/utils.ts, with an explicit recursion-depth
bound `fuel` (the source recurses through the key-sorted entry list, which is
not a structural subterm; `fuel ≥ sizeOf v` makes the bound irrelevant):
primitives via `JSON.stringify`, arrays element-wise in order, objects with
keys sorted and each entry rendered as `"key":value`. -/
def ssF : Nat → Json → List Char
  | 0, _ => []
  | _ + 1, Json.null => ['n', 'u', 'l', 'l']
  | _ + 1, Json.bool true => ['t', 'r', 'u', 'e']
  | _ + 1, Json.bool false => ['f', 'a', 'l', 's', 'e']
  | _ + 1, Json.num n => intRepr n
  | _ + 1, Json.str s => strLit s
  | fuel + 1, Json.arr xs => '[' :: ssListF fuel xs ++ [']']
  | fuel + 1, Json.obj kvs => lbraceC :: ssObjF fuel (sortObj kvs) ++ [rbraceC]

/-- `xs.map(stableStringify).join(",")`, fuelled. -/
def ssListF : Nat → JsonList → List Char
  | 0, _ => []
  | _ + 1, JsonList.nil => []
  | fuel + 1, JsonList.cons x JsonList.nil => ssF fuel x
  | fuel + 1, JsonList.cons x (JsonList.cons y tl) =>
      ssF fuel x ++ ',' :: ssListF fuel (JsonList.cons y tl)

/-- The comma-joined `JSON.stringify(k) + ":" + stableStringify(record[k])`
entries of an (already key-sorted) object, fuelled. -/
def ssObjF : Nat → JsonObj → List Char
  | 0, _ => []
  | _ + 1, JsonObj.nil => []
  | fuel + 1, JsonObj.cons k v JsonObj.nil => strLit k ++ ':' :: ssF fuel v
  | fuel + 1, JsonObj.cons k v (JsonObj.cons k2 v2 tl) =>
      (strLit k ++ ':' :: ssF fuel v) ++ ',' :: ssObjF fuel (JsonObj.cons k2 v2 tl)

end

mutual

/-- Size of a JSON value (an upper bound on the serializer's recursion depth). -/
def jsize : Json → Nat
  | Json.null => 1
  | Json.bool _ => 1
  | Json.num _ => 1
  | Json.str _ => 1
  | Json.arr xs => jlsize xs + 1
  | Json.obj kvs => josize kvs + 1

/-- Total size of a list of JSON values. -/
def jlsize : JsonList → Nat
  | JsonList.nil => 1
  | JsonList.cons x tl => jsize x + jlsize tl + 1

/-- Total size of an object's entry list. -/
def josize : JsonObj → Nat
  | JsonObj.nil => 1
  | JsonObj.cons _ v tl => jsize v + josize tl + 1

end

/-- `stableStringify(v)`: the fuelled serializer run with enough fuel. -/
def stableStringify (v : Json) : List Char := ssF (jsize v) v

mutual

/-- Structural serializer of a `Json` value, without any key sorting.
`stableStringify` equals this serializer composed with recursive key sorting
(`canon` below); the factored form drives the injectivity argument. -/
def serV : Json → List Char
  | Json.null => ['n', 'u', 'l', 'l']
  | Json.bool true => ['t', 'r', 'u', 'e']
  | Json.bool false => ['f', 'a', 'l', 's', 'e']
  | Json.num n => intRepr n
  | Json.str s => strLit s
  | Json.arr xs => '[' :: serArr xs ++ [']']
  | Json.obj kvs => lbraceC :: serObj kvs ++ [rbraceC]

/-- Comma-joined serializations of array elements (the body between `[` and `]`). -/
def serArr : JsonList → List Char
  | JsonList.nil => []
  | JsonList.cons x JsonList.nil => serV x
  | JsonList.cons x (JsonList.cons y tl) =>
      serV x ++ ',' :: serArr (JsonList.cons y tl)

/-- Comma-joined `"key":value` serializations of object entries (the body
between the braces). -/
def serObj : JsonObj → List Char
  | JsonObj.nil => []
  | JsonObj.cons k v JsonObj.nil => strLit k ++ ':' :: serV v
  | JsonObj.cons k v (JsonObj.cons k2 v2 tl) =>
      (strLit k ++ ':' :: serV v) ++ ',' :: serObj (JsonObj.cons k2 v2 tl)

end

mutual

/-- Recursively sort every object's keys.  Two values are "deeply equal
ignoring object key order" exactly when their canonical forms are equal. -/
def canon : Json → Json
  | Json.null => Json.null
  | Json.bool b => Json.bool b
  | Json.num n => Json.num n
  | Json.str s => Json.str s
  | Json.arr xs => Json.arr (canonList xs)
  | Json.obj kvs => Json.obj (sortObj (canonObj kvs))

/-- Canonicalize each element of an array. -/
def canonList : JsonList → JsonList
  | JsonList.nil => JsonList.nil
  | JsonList.cons x tl => JsonList.cons (canon x) (canonList tl)

/-- Canonicalize each value of an object (key order untouched here; `canon`
sorts afterwards). -/
def canonObj : JsonObj → JsonObj
  | JsonObj.nil => JsonObj.nil
  | JsonObj.cons k v tl => JsonObj.cons k (canon v) (canonObj tl)

end

/-- A matcher argument: either an actual value or JS `undefined` (the bound
argument of a no-argument matcher). -/
abbrev OptJson := Option Json

/-- `stableStringify` lifted to possibly-`undefined` arguments: JS string
concatenation renders `JSON.stringify(undefined) === undefined` as the text
`undefined`. -/
def stableStringifyArg : OptJson → List Char
  | none => ['u', 'n', 'd', 'e', 'f', 'i', 'n', 'e', 'd']
  | some v => stableStringify v

/-- `makeMatcherCacheKey` from src/utils.ts: `matcherName + "|args:" +
stableStringify(args)`. -/
def makeMatcherCacheKey (matcherName : String) (args : OptJson) : List Char :=
  matcherName.data ++ ['|', 'a', 'r', 'g', 's', ':'] ++ stableStringifyArg args

/-- Canonical form of a possibly-`undefined` argument: the equality
`canonArg a = canonArg b` states that `a` and `b` are deeply equal up to
object key order. -/
def canonArg : OptJson → OptJson
  | none => none
  | some v => some (canon v)

/-! ### Injectivity of the decimal rendering -/

/-- Decode a most-significant-first decimal digit string. -/
def ofDigitsChar (l : List Char) : Nat :=
  l.foldl (fun acc c => acc * 10 + (c.toNat - 48)) 0

theorem digitChar_toNat : ∀ d : Nat, d < 10 → (digitChar d).toNat = 48 + d := by
  decide

theorem digitChar_isDigit : ∀ d : Nat, d < 10 → (digitChar d).isDigit = true := by
  decide

theorem ofDigitsChar_append_digit (l : List Char) (c : Char) :
    ofDigitsChar (l ++ [c]) = ofDigitsChar l * 10 + (c.toNat - 48) := by
  simp [ofDigitsChar, List.foldl_append]

theorem ofDigitsChar_natReprAux :
    ∀ fuel n : Nat, n ≤ fuel → ofDigitsChar (natReprAux fuel n) = n := by
  intro fuel
  induction fuel with
  | zero =>
      intro n hn
      interval_cases n
      simp [natReprAux, ofDigitsChar]
  | succ fuel ih =>
      intro n hn
      by_cases h0 : n = 0
      · simp [natReprAux, h0, ofDigitsChar]
      · have hdiv : n / 10 < n := Nat.div_lt_self (Nat.pos_of_ne_zero h0) (by omega)
        have hle : n / 10 ≤ fuel := by omega
        have hmod : n % 10 < 10 := Nat.mod_lt _ (by omega)
        simp only [natReprAux, h0, if_false]
        rw [ofDigitsChar_append_digit, ih _ hle, digitChar_toNat _ hmod]
        omega

theorem ofDigitsChar_natRepr (n : Nat) : ofDigitsChar (natRepr n) = n := by
  by_cases h0 : n = 0
  · simp [natRepr, h0, ofDigitsChar]
  · simp only [natRepr, h0, if_false]
    exact ofDigitsChar_natReprAux n n le_rfl

theorem natRepr_inj {m n : Nat} (h : natRepr m = natRepr n) : m = n := by
  have := congrArg ofDigitsChar h
  rwa [ofDigitsChar_natRepr, ofDigitsChar_natRepr] at this

theorem natReprAux_digits :
    ∀ fuel n : Nat, ∀ c ∈ natReprAux fuel n, c.isDigit = true := by
  intro fuel
  induction fuel with
  | zero => intro n c hc; simp [natReprAux] at hc
  | succ fuel ih =>
      intro n c hc
      by_cases h0 : n = 0
      · simp [natReprAux, h0] at hc
      · simp only [natReprAux, h0, if_false, List.mem_append, List.mem_singleton] at hc
        rcases hc with hc | hc
        · exact ih _ _ hc
        · subst hc; exact digitChar_isDigit _ (Nat.mod_lt _ (by omega))

theorem natRepr_digits (n : Nat) : ∀ c ∈ natRepr n, c.isDigit = true := by
  intro c hc
  by_cases h0 : n = 0
  · simp [natRepr, h0] at hc; subst hc; decide
  · simp only [natRepr, h0, if_false] at hc
    exact natReprAux_digits n n c hc

theorem natRepr_ne_nil (n : Nat) : natRepr n ≠ [] := by
  by_cases h0 : n = 0
  · simp [natRepr, h0]
  · obtain ⟨m, rfl⟩ : ∃ m, n = m + 1 := ⟨n - 1, by omega⟩
    simp [natRepr, natReprAux, h0]

/-- The continuation after a serialized token never begins with a decimal
digit; this is what makes the greedy digit scan unambiguous. -/
def notDigitStart : List Char → Prop
  | [] => True
  | c :: _ => c.isDigit = false

theorem digitRun_append_inj :
    ∀ d1 d2 r1 r2 : List Char,
      (∀ c ∈ d1, c.isDigit = true) → (∀ c ∈ d2, c.isDigit = true) →
      notDigitStart r1 → notDigitStart r2 →
      d1 ++ r1 = d2 ++ r2 → d1 = d2 ∧ r1 = r2 := by
  intro d1
  induction d1 with
  | nil =>
      intro d2 r1 r2 _ hd2 hr1 hr2 h
      cases d2 with
      | nil => exact ⟨rfl, by simpa using h⟩
      | cons c cs =>
          exfalso
          simp only [List.nil_append] at h
          have : r1 = c :: (cs ++ r2) := by simpa using h
          have hdig : c.isDigit = true := hd2 c (by simp)
          rw [this] at hr1
          simp [notDigitStart, hdig] at hr1
  | cons a as ih =>
      intro d2 r1 r2 hd1 hd2 hr1 hr2 h
      cases d2 with
      | nil =>
          exfalso
          simp only [List.nil_append] at h
          have : r2 = a :: (as ++ r1) := by simpa using h.symm
          have hdig : a.isDigit = true := hd1 a (by simp)
          rw [this] at hr2
          simp [notDigitStart, hdig] at hr2
      | cons b bs =>
          simp only [List.cons_append, List.cons.injEq] at h
          obtain ⟨hab, htl⟩ := h
          subst hab
          obtain ⟨h1, h2⟩ := ih bs r1 r2 (fun c hc => hd1 c (by simp [hc]))
            (fun c hc => hd2 c (by simp [hc])) hr1 hr2 htl
          exact ⟨by rw [h1], h2⟩

theorem natRepr_append_inj {m n : Nat} {r1 r2 : List Char}
    (hr1 : notDigitStart r1) (hr2 : notDigitStart r2)
    (h : natRepr m ++ r1 = natRepr n ++ r2) : m = n ∧ r1 = r2 := by
  obtain ⟨h1, h2⟩ := digitRun_append_inj (natRepr m) (natRepr n) r1 r2
    (natRepr_digits m) (natRepr_digits n) hr1 hr2 h
  exact ⟨natRepr_inj h1, h2⟩

theorem natRepr_head_digit (n : Nat) :
    ∃ c t, natRepr n = c :: t ∧ c.isDigit = true := by
  cases hrep : natRepr n with
  | nil => exact absurd hrep (natRepr_ne_nil n)
  | cons c t =>
      exact ⟨c, t, rfl, natRepr_digits n c (by rw [hrep]; simp)⟩

theorem intRepr_append_inj {m n : Int} {r1 r2 : List Char}
    (hr1 : notDigitStart r1) (hr2 : notDigitStart r2)
    (h : intRepr m ++ r1 = intRepr n ++ r2) : m = n ∧ r1 = r2 := by
  by_cases hm : m < 0 <;> by_cases hn : n < 0
  · simp only [intRepr, hm, hn, if_true, List.cons_append, List.cons.injEq] at h
    obtain ⟨hab, htl⟩ := natRepr_append_inj hr1 hr2 h.2
    exact ⟨by omega, htl⟩
  · exfalso
    simp only [intRepr, hm, hn, if_true, if_false] at h
    obtain ⟨c, t, hct, hdig⟩ := natRepr_head_digit n.toNat
    rw [hct] at h
    simp only [List.cons_append, List.cons.injEq] at h
    have : ('-' : Char).isDigit = true := h.1 ▸ hdig
    simp at this
  · exfalso
    simp only [intRepr, hm, hn, if_true, if_false] at h
    obtain ⟨c, t, hct, hdig⟩ := natRepr_head_digit m.toNat
    rw [hct] at h
    simp only [List.cons_append, List.cons.injEq] at h
    have : ('-' : Char).isDigit = true := h.1.symm ▸ hdig
    simp at this
  · simp only [intRepr, hm, hn, if_false] at h
    obtain ⟨hab, htl⟩ := natRepr_append_inj hr1 hr2 h
    exact ⟨by omega, htl⟩

/-! ### Unambiguity of quoted string literals -/

theorem escChar_special {c : Char} (h : c = quoteC ∨ c = bslashC) :
    escChar c = [bslashC, c] := by
  rcases h with h | h <;> subst h <;> simp [escChar]
  · intro h
    exact absurd h (by decide)

theorem escChar_plain {c : Char} (h1 : c ≠ quoteC) (h2 : c ≠ bslashC) :
    escChar c = [c] := by
  simp [escChar, h1, h2]

theorem escChar_head_ne_quote (c : Char) :
    ∃ d t, escChar c = d :: t ∧ d ≠ quoteC := by
  by_cases h1 : c = quoteC
  · exact ⟨bslashC, [c], escChar_special (Or.inl h1), by decide⟩
  · by_cases h2 : c = bslashC
    · exact ⟨bslashC, [c], escChar_special (Or.inr h2), by decide⟩
    · exact ⟨c, [], escChar_plain h1 h2, h1⟩

theorem escStr_append_inj :
    ∀ cs1 cs2 r1 r2 : List Char,
      escStr cs1 ++ quoteC :: r1 = escStr cs2 ++ quoteC :: r2 →
      cs1 = cs2 ∧ r1 = r2 := by
  intro cs1
  induction cs1 with
  | nil =>
      intro cs2 r1 r2 h
      cases cs2 with
      | nil => exact ⟨rfl, by simpa [escStr] using h⟩
      | cons b bs =>
          exfalso
          obtain ⟨d, t, hdt, hne⟩ := escChar_head_ne_quote b
          simp only [escStr, List.nil_append, hdt, List.cons_append,
            List.append_assoc, List.cons.injEq] at h
          exact hne h.1.symm
  | cons a as ih =>
      intro cs2 r1 r2 h
      cases cs2 with
      | nil =>
          exfalso
          obtain ⟨d, t, hdt, hne⟩ := escChar_head_ne_quote a
          simp only [escStr, List.nil_append, hdt, List.cons_append,
            List.append_assoc, List.cons.injEq] at h
          exact hne h.1
      | cons b bs =>
          by_cases ha : a = quoteC ∨ a = bslashC <;> by_cases hb : b = quoteC ∨ b = bslashC
          · simp only [escStr, escChar_special ha, escChar_special hb,
              List.cons_append, List.append_assoc, List.cons.injEq] at h
            obtain ⟨-, hab, htl⟩ := h
            subst hab
            obtain ⟨h1, h2⟩ := ih bs r1 r2 (by simpa using htl)
            exact ⟨by rw [h1], h2⟩
          · exfalso
            push_neg at hb
            simp only [escStr, escChar_special ha, escChar_plain hb.1 hb.2,
              List.cons_append, List.singleton_append, List.append_assoc,
              List.cons.injEq] at h
            exact hb.2 h.1.symm
          · exfalso
            push_neg at ha
            simp only [escStr, escChar_special hb, escChar_plain ha.1 ha.2,
              List.cons_append, List.singleton_append, List.append_assoc,
              List.cons.injEq] at h
            exact ha.2 h.1
          · push_neg at ha hb
            simp only [escStr, escChar_plain ha.1 ha.2, escChar_plain hb.1 hb.2,
              List.cons_append, List.singleton_append, List.cons.injEq] at h
            obtain ⟨hab, htl⟩ := h
            subst hab
            obtain ⟨h1, h2⟩ := ih bs r1 r2 (by simpa using htl)
            exact ⟨by rw [h1], h2⟩

theorem strLit_append_inj {s1 s2 : String} {r1 r2 : List Char}
    (h : strLit s1 ++ r1 = strLit s2 ++ r2) : s1 = s2 ∧ r1 = r2 := by
  simp only [strLit, List.cons_append, List.append_assoc, List.singleton_append,
    List.cons.injEq, true_and] at h
  obtain ⟨h1, h2⟩ := escStr_append_inj s1.data s2.data r1 r2 h
  exact ⟨String.ext h1, h2⟩

/-! ### First-character discrimination between serialized forms -/

/-- Classification of a character as the possible first character of a
serialized value: each constructor of `Json` yields its own class, and the
delimiter characters `,` `]` `:` and the closing brace are in none of them. -/
def charClass (c : Char) : Nat :=
  if c = 'n' then 0
  else if c = 't' then 1
  else if c = 'f' then 2
  else if c = '-' then 3
  else if c.isDigit then 4
  else if c = quoteC then 5
  else if c = '[' then 6
  else if c = lbraceC then 7
  else 8

/-- The class of the first character `serV` emits for each constructor. -/
def ctorClass : Json → Nat
  | Json.null => 0
  | Json.bool true => 1
  | Json.bool false => 2
  | Json.num n => if n < 0 then 3 else 4
  | Json.str _ => 5
  | Json.arr _ => 6
  | Json.obj _ => 7

theorem charClass_of_digit {c : Char} (h : c.isDigit = true) : charClass c = 4 := by
  have h1 : c ≠ 'n' := by rintro rfl; simp at h
  have h2 : c ≠ 't' := by rintro rfl; simp at h
  have h3 : c ≠ 'f' := by rintro rfl; simp at h
  have h4 : c ≠ '-' := by rintro rfl; simp at h
  simp [charClass, h1, h2, h3, h4, h]

theorem serV_head (v : Json) :
    ∃ c t, serV v = c :: t ∧ charClass c = ctorClass v := by
  cases v with
  | null => exact ⟨'n', _, rfl, by decide⟩
  | bool b =>
      cases b with
      | false => exact ⟨'f', _, rfl, by decide⟩
      | true => exact ⟨'t', _, rfl, by decide⟩
  | num n =>
      by_cases hn : n < 0
      · refine ⟨'-', natRepr n.natAbs, ?_, ?_⟩
        · simp [serV, intRepr, hn]
        · simp [ctorClass, hn]; decide
      · obtain ⟨c, t, hct, hdig⟩ := natRepr_head_digit n.toNat
        refine ⟨c, t, ?_, ?_⟩
        · simp [serV, intRepr, hn, hct]
        · simp [ctorClass, hn, charClass_of_digit hdig]
  | str s => exact ⟨quoteC, _, rfl, by simp only [ctorClass]; decide⟩
  | arr xs => exact ⟨'[', _, rfl, by simp only [ctorClass]; decide⟩
  | obj kvs => exact ⟨lbraceC, _, rfl, by simp only [ctorClass]; decide⟩

theorem ctorClass_le (v : Json) : ctorClass v ≤ 7 := by
  cases v with
  | num n => by_cases hn : n < 0 <;> simp [ctorClass, hn]
  | bool b => cases b <;> simp [ctorClass]
  | _ => simp [ctorClass]

theorem serV_append_ctorClass {v1 v2 : Json} {r1 r2 : List Char}
    (h : serV v1 ++ r1 = serV v2 ++ r2) : ctorClass v1 = ctorClass v2 := by
  obtain ⟨c1, t1, h1, hc1⟩ := serV_head v1
  obtain ⟨c2, t2, h2, hc2⟩ := serV_head v2
  rw [h1, h2] at h
  simp only [List.cons_append, List.cons.injEq] at h
  rw [← hc1, ← hc2, h.1]

/-- Head-mismatch helper: a serialized value never starts with a delimiter. -/
theorem serV_head_ne_delim {v : Json} {t r : List Char} {c : Char}
    (hcl : charClass c = 8) (h : c :: r = serV v ++ t) : False := by
  obtain ⟨c1, t1, h1, hc1⟩ := serV_head v
  rw [h1] at h
  simp only [List.cons_append, List.cons.injEq] at h
  have := ctorClass_le v
  rw [← hc1, ← h.1, hcl] at this
  omega

/-! ### Unique readability of `serV` -/

/-- The continuation emitted after the head element of a nonempty array body:
either the closing bracket or a comma followed by the remaining elements. -/
def arrTail : JsonList → List Char → List Char
  | JsonList.nil, r => ']' :: r
  | JsonList.cons y t, r => ',' :: (serArr (JsonList.cons y t) ++ ']' :: r)

theorem serArr_cons_eq (x : Json) (tl : JsonList) (r : List Char) :
    serArr (JsonList.cons x tl) ++ ']' :: r = serV x ++ arrTail tl r := by
  cases tl <;> simp [serArr, arrTail, List.append_assoc]

theorem arrTail_notDigit (tl : JsonList) (r : List Char) :
    notDigitStart (arrTail tl r) := by
  cases tl <;> simp [arrTail, notDigitStart]

/-- The continuation emitted after the head entry's value in a nonempty
object body. -/
def objTail : JsonObj → List Char → List Char
  | JsonObj.nil, r => rbraceC :: r
  | JsonObj.cons k v t, r => ',' :: (serObj (JsonObj.cons k v t) ++ rbraceC :: r)

theorem serObj_cons_eq (k : String) (v : Json) (tl : JsonObj) (r : List Char) :
    serObj (JsonObj.cons k v tl) ++ rbraceC :: r =
      strLit k ++ ':' :: (serV v ++ objTail tl r) := by
  cases tl <;> simp [serObj, objTail, List.append_assoc]

theorem objTail_notDigit (tl : JsonObj) (r : List Char) :
    notDigitStart (objTail tl r) := by
  cases tl <;> exact (by decide : (rbraceC.isDigit) = false)

mutual

/-- Unique readability: a serialized value followed by a continuation that
does not begin with a digit determines both the value and the continuation. -/
theorem readV : ∀ (v1 v2 : Json) (r1 r2 : List Char),
    notDigitStart r1 → notDigitStart r2 →
    serV v1 ++ r1 = serV v2 ++ r2 → v1 = v2 ∧ r1 = r2 := by
  intro v1 v2 r1 r2 hr1 hr2 h
  have hcls := serV_append_ctorClass h
  cases v1 with
  | null =>
      cases v2 with
      | null => simp only [serV, List.cons_append, List.nil_append,
          List.cons.injEq, true_and] at h; exact ⟨rfl, h⟩
      | bool b => cases b <;> simp [ctorClass] at hcls
      | num n => simp [ctorClass] at hcls; split at hcls <;> omega
      | str s => simp [ctorClass] at hcls
      | arr xs => simp [ctorClass] at hcls
      | obj kvs => simp [ctorClass] at hcls
  | bool b1 =>
      cases v2 with
      | null => cases b1 <;> simp [ctorClass] at hcls
      | bool b2 =>
          cases b1 with
          | false =>
              cases b2 with
              | false =>
                  simp only [serV, List.cons_append, List.nil_append,
                    List.cons.injEq, true_and] at h
                  exact ⟨rfl, h⟩
              | true => simp [ctorClass] at hcls
          | true =>
              cases b2 with
              | false => simp [ctorClass] at hcls
              | true =>
                  simp only [serV, List.cons_append, List.nil_append,
                    List.cons.injEq, true_and] at h
                  exact ⟨rfl, h⟩
      | num n => cases b1 <;> (simp [ctorClass] at hcls; split at hcls <;> omega)
      | str s => cases b1 <;> simp [ctorClass] at hcls
      | arr xs => cases b1 <;> simp [ctorClass] at hcls
      | obj kvs => cases b1 <;> simp [ctorClass] at hcls
  | num n1 =>
      cases v2 with
      | num n2 =>
          simp only [serV] at h
          obtain ⟨h1, h2⟩ := intRepr_append_inj hr1 hr2 h
          exact ⟨by rw [h1], h2⟩
      | null => simp [ctorClass] at hcls; split at hcls <;> omega
      | bool b => cases b <;> (simp [ctorClass] at hcls; split at hcls <;> omega)
      | str s => simp [ctorClass] at hcls; split at hcls <;> omega
      | arr xs => simp [ctorClass] at hcls; split at hcls <;> omega
      | obj kvs => simp [ctorClass] at hcls; split at hcls <;> omega
  | str s1 =>
      cases v2 with
      | str s2 =>
          simp only [serV] at h
          obtain ⟨h1, h2⟩ := strLit_append_inj h
          exact ⟨by rw [h1], h2⟩
      | null => simp [ctorClass] at hcls
      | bool b => cases b <;> simp [ctorClass] at hcls
      | num n => simp [ctorClass] at hcls; split at hcls <;> omega
      | arr xs => simp [ctorClass] at hcls
      | obj kvs => simp [ctorClass] at hcls
  | arr xs1 =>
      cases v2 with
      | arr xs2 =>
          simp only [serV, List.cons_append, List.append_assoc,
            List.singleton_append, List.cons.injEq, true_and] at h
          obtain ⟨h1, h2⟩ := readA xs1 xs2 r1 r2 h
          exact ⟨by rw [h1], h2⟩
      | null => simp [ctorClass] at hcls
      | bool b => cases b <;> simp [ctorClass] at hcls
      | num n => simp [ctorClass] at hcls; split at hcls <;> omega
      | str s => simp [ctorClass] at hcls
      | obj kvs => simp [ctorClass] at hcls
  | obj kvs1 =>
      cases v2 with
      | obj kvs2 =>
          simp only [serV, List.cons_append, List.append_assoc,
            List.singleton_append, List.cons.injEq, true_and] at h
          obtain ⟨h1, h2⟩ := readO kvs1 kvs2 r1 r2 h
          exact ⟨by rw [h1], h2⟩
      | null => simp [ctorClass] at hcls
      | bool b => cases b <;> simp [ctorClass] at hcls
      | num n => simp [ctorClass] at hcls; split at hcls <;> omega
      | str s => simp [ctorClass] at hcls
      | arr xs => simp [ctorClass] at hcls

/-- Unique readability of comma-joined array bodies up to the closing bracket. -/
theorem readA : ∀ (l1 l2 : JsonList) (r1 r2 : List Char),
    serArr l1 ++ ']' :: r1 = serArr l2 ++ ']' :: r2 → l1 = l2 ∧ r1 = r2 := by
  intro l1 l2 r1 r2 h
  cases l1 with
  | nil =>
      cases l2 with
      | nil =>
          simp only [serArr, List.nil_append, List.cons.injEq, true_and] at h
          exact ⟨rfl, h⟩
      | cons x tl =>
          exfalso
          rw [serArr_cons_eq] at h
          simp only [serArr, List.nil_append] at h
          exact serV_head_ne_delim (by decide) h
  | cons x1 tl1 =>
      cases l2 with
      | nil =>
          exfalso
          rw [serArr_cons_eq] at h
          simp only [serArr, List.nil_append] at h
          exact serV_head_ne_delim (by decide) h.symm
      | cons x2 tl2 =>
          rw [serArr_cons_eq, serArr_cons_eq] at h
          obtain ⟨hx, htl⟩ := readV x1 x2 (arrTail tl1 r1) (arrTail tl2 r2)
            (arrTail_notDigit tl1 r1) (arrTail_notDigit tl2 r2) h
          cases tl1 with
          | nil =>
              cases tl2 with
              | nil =>
                  simp only [arrTail, List.cons.injEq, true_and] at htl
                  exact ⟨by rw [hx], htl⟩
              | cons y2 t2 => simp [arrTail] at htl
          | cons y1 t1 =>
              cases tl2 with
              | nil => simp [arrTail] at htl
              | cons y2 t2 =>
                  simp only [arrTail, List.cons.injEq, true_and] at htl
                  obtain ⟨h1, h2⟩ :=
                    readA (JsonList.cons y1 t1) (JsonList.cons y2 t2) r1 r2 htl
                  exact ⟨by rw [hx, h1], h2⟩

/-- Unique readability of comma-joined object bodies up to the closing brace. -/
theorem readO : ∀ (o1 o2 : JsonObj) (r1 r2 : List Char),
    serObj o1 ++ rbraceC :: r1 = serObj o2 ++ rbraceC :: r2 → o1 = o2 ∧ r1 = r2 := by
  intro o1 o2 r1 r2 h
  cases o1 with
  | nil =>
      cases o2 with
      | nil =>
          simp only [serObj, List.nil_append, List.cons.injEq, true_and] at h
          exact ⟨rfl, h⟩
      | cons k v tl =>
          exfalso
          rw [serObj_cons_eq] at h
          simp only [serObj, List.nil_append, strLit, List.cons_append,
            List.cons.injEq] at h
          exact absurd h.1 (by decide)
  | cons k1 v1 tl1 =>
      cases o2 with
      | nil =>
          exfalso
          rw [serObj_cons_eq] at h
          simp only [serObj, List.nil_append, strLit, List.cons_append,
            List.cons.injEq] at h
          exact absurd h.1 (by decide)
      | cons k2 v2 tl2 =>
          rw [serObj_cons_eq, serObj_cons_eq] at h
          obtain ⟨hk, hrest⟩ := strLit_append_inj h
          simp only [List.cons.injEq, true_and] at hrest
          obtain ⟨hv, htl⟩ := readV v1 v2 (objTail tl1 r1) (objTail tl2 r2)
            (objTail_notDigit tl1 r1) (objTail_notDigit tl2 r2) hrest
          cases tl1 with
          | nil =>
              cases tl2 with
              | nil =>
                  simp only [objTail, List.cons.injEq, true_and] at htl
                  exact ⟨by rw [hk, hv], htl⟩
              | cons kk vv tt =>
                  exfalso
                  simp only [objTail, List.cons.injEq] at htl
                  exact absurd htl.1 (by decide)
          | cons kk1 vv1 tt1 =>
              cases tl2 with
              | nil =>
                  exfalso
                  simp only [objTail, List.cons.injEq] at htl
                  exact absurd htl.1 (by decide)
              | cons kk2 vv2 tt2 =>
                  simp only [objTail, List.cons.injEq, true_and] at htl
                  obtain ⟨h1, h2⟩ := readO (JsonObj.cons kk1 vv1 tt1)
                    (JsonObj.cons kk2 vv2 tt2) r1 r2 htl
                  exact ⟨by rw [hk, hv, h1], h2⟩

end

/-- `serV` is injective on all values (no canonicity needed: it never sorts). -/
theorem serV_inj {a b : Json} (h : serV a = serV b) : a = b := by
  have h2 : serV a ++ [] = serV b ++ [] := by simpa using h
  exact (readV a b [] [] trivial trivial h2).1

/-! ### `stableStringify` factors through canonicalization -/

theorem canonObj_insertPair (k : String) (v : Json) :
    ∀ o : JsonObj, canonObj (insertPair k v o) = insertPair k (canon v) (canonObj o)
  | JsonObj.nil => rfl
  | JsonObj.cons k2 v2 tl => by
      by_cases hle : strLe k k2
      · simp [insertPair, canonObj, hle]
      · simp [insertPair, canonObj, hle, canonObj_insertPair k v tl]

theorem canonObj_sortObj : ∀ o : JsonObj, canonObj (sortObj o) = sortObj (canonObj o)
  | JsonObj.nil => rfl
  | JsonObj.cons k v tl => by
      simp [sortObj, canonObj, canonObj_insertPair, canonObj_sortObj tl]

theorem jsize_pos (v : Json) : 1 ≤ jsize v := by
  cases v <;> simp [jsize]

theorem jlsize_pos (l : JsonList) : 1 ≤ jlsize l := by
  cases l <;> simp [jlsize]

theorem josize_pos (o : JsonObj) : 1 ≤ josize o := by
  cases o <;> simp [josize]

theorem josize_insertPair (k : String) (v : Json) :
    ∀ o : JsonObj, josize (insertPair k v o) = jsize v + josize o + 1
  | JsonObj.nil => rfl
  | JsonObj.cons k2 v2 tl => by
      by_cases hle : strLe k k2
      · simp [insertPair, josize, hle]
      · simp [insertPair, josize, hle, josize_insertPair k v tl]
        omega

theorem josize_sortObj : ∀ o : JsonObj, josize (sortObj o) = josize o
  | JsonObj.nil => rfl
  | JsonObj.cons k v tl => by
      simp [sortObj, josize, josize_insertPair, josize_sortObj tl]

theorem ssF_eq_aux : ∀ fuel : Nat,
    (∀ v, jsize v ≤ fuel → ssF fuel v = serV (canon v)) ∧
    (∀ l, jlsize l ≤ fuel → ssListF fuel l = serArr (canonList l)) ∧
    (∀ o, josize o ≤ fuel → ssObjF fuel o = serObj (canonObj o)) := by
  intro fuel
  induction fuel with
  | zero =>
      refine ⟨fun v hv => ?_, fun l hl => ?_, fun o ho => ?_⟩
      · exact absurd hv (by have := jsize_pos v; omega)
      · exact absurd hl (by have := jlsize_pos l; omega)
      · exact absurd ho (by have := josize_pos o; omega)
  | succ fuel ih =>
      obtain ⟨ihv, ihl, iho⟩ := ih
      refine ⟨fun v hv => ?_, fun l hl => ?_, fun o ho => ?_⟩
      · cases v with
        | null => rfl
        | bool b => cases b <;> rfl
        | num n => rfl
        | str s => rfl
        | arr xs =>
            simp only [jsize] at hv
            simp only [ssF, serV, canon, ihl xs (by omega)]
        | obj kvs =>
            simp only [jsize] at hv
            have hsize : josize (sortObj kvs) ≤ fuel := by
              rw [josize_sortObj]; omega
            simp only [ssF, serV, canon, iho (sortObj kvs) hsize, canonObj_sortObj]
      · cases l with
        | nil => rfl
        | cons x tl =>
            cases tl with
            | nil =>
                simp only [jlsize] at hl
                simp only [ssListF, serArr, canonList, ihv x (by omega)]
            | cons y t2 =>
                simp only [jlsize] at hl
                have h1 := ihv x (by omega)
                have h2 := ihl (JsonList.cons y t2) (by simp [jlsize]; omega)
                simp only [ssListF, serArr, canonList, h1]
                simp only [canonList] at h2
                rw [h2]
      · cases o with
        | nil => rfl
        | cons k v tl =>
            cases tl with
            | nil =>
                simp only [josize] at ho
                simp only [ssObjF, serObj, canonObj, ihv v (by omega)]
            | cons k2 v2 t2 =>
                simp only [josize] at ho
                have h1 := ihv v (by omega)
                have h2 := iho (JsonObj.cons k2 v2 t2) (by simp [josize]; omega)
                simp only [ssObjF, serObj, canonObj, h1]
                simp only [canonObj] at h2
                rw [h2]

/-- The serializer of src/utils.ts equals the unsorted structural serializer
applied to the canonical (recursively key-sorted) form of the value. -/
theorem stableStringify_eq_serV_canon (v : Json) :
    stableStringify v = serV (canon v) :=
  (ssF_eq_aux (jsize v)).1 v le_rfl

/-- Determinism and collision-freedom of `stableStringify`: two values have
equal serializations exactly when they are deeply equal up to object key
order (equal canonical forms). -/
theorem stableStringify_eq_iff {a b : Json} :
    stableStringify a = stableStringify b ↔ canon a = canon b := by
  rw [stableStringify_eq_serV_canon, stableStringify_eq_serV_canon]
  exact ⟨fun h => serV_inj h, fun h => by rw [h]⟩

theorem stableStringify_ne_undefined (v : Json) :
    stableStringify v ≠ ['u', 'n', 'd', 'e', 'f', 'i', 'n', 'e', 'd'] := by
  intro h
  rw [stableStringify_eq_serV_canon] at h
  obtain ⟨c, t, hct, hcl⟩ := serV_head (canon v)
  rw [hct] at h
  simp only [List.cons.injEq] at h
  have h8 : charClass 'u' = 8 := by decide
  have := ctorClass_le (canon v)
  rw [← hcl, h.1, h8] at this
  omega

theorem stableStringifyArg_eq_iff {a b : OptJson} :
    stableStringifyArg a = stableStringifyArg b ↔ canonArg a = canonArg b := by
  cases a with
  | none =>
      cases b with
      | none => simp [stableStringifyArg, canonArg]
      | some vb =>
          simp only [stableStringifyArg, canonArg]
          constructor
          · intro h; exact absurd h.symm (stableStringify_ne_undefined vb)
          · intro h; exact absurd h (by simp)
  | some va =>
      cases b with
      | none =>
          simp only [stableStringifyArg, canonArg]
          constructor
          · intro h; exact absurd h (stableStringify_ne_undefined va)
          · intro h; exact absurd h (by simp)
      | some vb =>
          simp only [stableStringifyArg, canonArg, Option.some.injEq]
          exact stableStringify_eq_iff


theorem makeMatcherCacheKey_eq_iff {name : String} {a b : OptJson} :
    makeMatcherCacheKey name a = makeMatcherCacheKey name b ↔
      canonArg a = canonArg b := by
  unfold makeMatcherCacheKey
  rw [List.append_assoc, List.append_assoc]
  constructor
  · intro h
    have h1 := List.append_cancel_left h
    have h2 := List.append_cancel_left h1
    exact stableStringifyArg_eq_iff.mp h2
  · intro h
    rw [stableStringifyArg_eq_iff.mpr h]

/-- C4: for every matcher name and all argument values A and B: if A and B are
deeply equal up to object key order (their canonical, recursively key-sorted
forms coincide) then `makeMatcherCacheKey(name, A)` equals
`makeMatcherCacheKey(name, B)`, and if A and B are structurally different
(different canonical forms, of the same or of different types, including the
`undefined` argument of no-argument matchers) then the keys differ: key
equality holds exactly on structural equality. -/
theorem C4_cache_key_determinism (name : String) (a b : OptJson) :
    makeMatcherCacheKey name a = makeMatcherCacheKey name b ↔
      canonArg a = canonArg b :=
  makeMatcherCacheKey_eq_iff

/-- A witness for C4 at concrete inputs: key-order variants of one object
produce the same cache key. -/
theorem C4_witness :
    makeMatcherCacheKey "m"
        (some (Json.obj (JsonObj.cons "a" (Json.num 1)
          (JsonObj.cons "b" (Json.num 2) JsonObj.nil)))) =
      makeMatcherCacheKey "m"
        (some (Json.obj (JsonObj.cons "b" (Json.num 2)
          (JsonObj.cons "a" (Json.num 1) JsonObj.nil)))) :=
  (C4_cache_key_determinism "m"
    (some (Json.obj (JsonObj.cons "a" (Json.num 1)
      (JsonObj.cons "b" (Json.num 2) JsonObj.nil))))
    (some (Json.obj (JsonObj.cons "b" (Json.num 2)
      (JsonObj.cons "a" (Json.num 1) JsonObj.nil))))).mpr rfl

/-! ### The batch coalescer `DataLoader` (src/DataLoader.ts) -/

/-- Association-list lookup (the model of `Map.get`/`Map.has`), first match
wins. -/
def assocFind {α : Type} : List (List Char × α) → List Char → Option α
  | [], _ => none
  | (k, v) :: tl, key => if k = key then some v else assocFind tl key

/-- `DataLoader.getCacheKey`: plain `JSON.stringify(arg)` — note this is the
insertion-order serializer (`serV`), not the key-sorted `stableStringify`. -/
def getCacheKey (arg : Json) : List Char := serV arg

/-- The mutable state of one `DataLoader`: the pending queue of
(request, resolver) pairs, the `scheduled` flag, the per-batch dedup cache
mapping serialized requests to promises, and an allocator for promise
identities (each `new Promise` is a fresh identity). -/
structure LoaderState where
  queue : List (Json × Nat)
  scheduled : Bool
  cache : List (List Char × Nat)
  nextId : Nat

/-- The empty loader state of a freshly constructed `DataLoader`. -/
def emptyLoader : LoaderState := { queue := [], scheduled := false, cache := [], nextId := 0 }

/-- `DataLoader.load(arg)`: if the serialized request is already in the
per-batch cache, return the cached promise; otherwise create a fresh promise,
push `(arg, resolve)` onto the queue, schedule a flush, and cache the
promise under the serialized key. -/
def load (s : LoaderState) (arg : Json) : LoaderState × Nat :=
  let key := getCacheKey arg
  match assocFind s.cache key with
  | some p => (s, p)
  | none =>
      ({ queue := s.queue ++ [(arg, s.nextId)],
         scheduled := true,
         cache := (key, s.nextId) :: s.cache,
         nextId := s.nextId + 1 }, s.nextId)

/-- A batch evaluator: receives the (request, resolver) pairs and either
settles some resolvers with booleans or throws/rejects. -/
def BatchEval : Type := List (Json × Nat) → Except String (List (Nat × Bool))

/-- `DataLoader.flush()`: first replace the cache and queue with fresh empty
ones and clear `scheduled` (so any `load` arriving after flush has started
belongs to the next batch), then invoke the caller-supplied batch evaluator
exactly once with the full batch.  The result triple is (new state, the list
of batches handed to the evaluator — a singleton, i.e. exactly one
invocation —, the resolver settlements that occurred).  A throwing or
rejecting evaluator is swallowed by `ResultAsync.fromPromise` without any
resolver being invoked: no settlement happens on the error path. -/
def dataLoaderFlush (s : LoaderState) (evaluateBatch : BatchEval) :
    LoaderState × List (List (Json × Nat)) × List (Nat × Bool) :=
  let s2 : LoaderState :=
    { queue := [], scheduled := false, cache := [], nextId := s.nextId }
  match evaluateBatch s.queue with
  | Except.ok settles => (s2, [s.queue], settles)
  | Except.error _ => (s2, [s.queue], [])

/-- C8 counterexample: the dedup key of `DataLoader` is plain
`JSON.stringify`, which is sensitive to object key insertion order: the two
structurally equal requests `(a:1, b:2)` and `(b:2, a:1)` (equal canonical
forms, hence equal under the library's own structural hash
`stableStringify`) are NOT deduplicated — the second `load` creates a second
promise and a second queue entry in the same batch. -/
theorem C8_counterexample_structural_dedup :
    canon (Json.obj (JsonObj.cons "a" (Json.num 1)
        (JsonObj.cons "b" (Json.num 2) JsonObj.nil))) =
      canon (Json.obj (JsonObj.cons "b" (Json.num 2)
        (JsonObj.cons "a" (Json.num 1) JsonObj.nil))) ∧
    (load (load emptyLoader (Json.obj (JsonObj.cons "a" (Json.num 1)
        (JsonObj.cons "b" (Json.num 2) JsonObj.nil)))).1
      (Json.obj (JsonObj.cons "b" (Json.num 2)
        (JsonObj.cons "a" (Json.num 1) JsonObj.nil)))).2 ≠
      (load emptyLoader (Json.obj (JsonObj.cons "a" (Json.num 1)
        (JsonObj.cons "b" (Json.num 2) JsonObj.nil)))).2 ∧
    (load (load emptyLoader (Json.obj (JsonObj.cons "a" (Json.num 1)
        (JsonObj.cons "b" (Json.num 2) JsonObj.nil)))).1
      (Json.obj (JsonObj.cons "b" (Json.num 2)
        (JsonObj.cons "a" (Json.num 1) JsonObj.nil)))).1.queue.length = 2 :=
  ⟨rfl, by decide, by decide⟩

/-- C8 (amended): deduplication is by the loader's serialization key
`JSON.stringify` (key-order-sensitive), not by the order-independent
structural hash: a second `load` in the same batch whose request has the
same `JSON.stringify` image returns the same promise and leaves the state
unchanged (no duplicate enqueued); `flush` swaps out the queue and dedup
cache for fresh empty ones before invoking the evaluator exactly once with
the full (request, resolver) list; and a `load` arriving after flush has
started belongs to the next batch — it allocates a fresh promise and a fresh
queue even for a request that was pending before the flush. -/
theorem C8_amended_dataloader :
    ∀ (s : LoaderState) (ev : BatchEval) (r1 r2 : Json),
      (getCacheKey r1 = getCacheKey r2 →
        load (load s r1).1 r2 = ((load s r1).1, (load s r1).2)) ∧
      ((dataLoaderFlush s ev).1 =
          { queue := [], scheduled := false, cache := [], nextId := s.nextId } ∧
        (dataLoaderFlush s ev).2.1 = [s.queue]) ∧
      (load (dataLoaderFlush s ev).1 r1 =
        ({ queue := [(r1, s.nextId)], scheduled := true,
           cache := [(getCacheKey r1, s.nextId)], nextId := s.nextId + 1 },
         s.nextId)) := by
  intro s ev r1 r2
  refine ⟨fun hk => ?_, ⟨?_, ?_⟩, ?_⟩
  · have hk2 : getCacheKey r2 = getCacheKey r1 := hk.symm
    cases h : assocFind s.cache (getCacheKey r1) with
    | some p => simp [load, h, hk2]
    | none => simp [load, h, hk2, assocFind]
  · unfold dataLoaderFlush
    cases ev s.queue <;> rfl
  · unfold dataLoaderFlush
    cases ev s.queue <;> rfl
  · unfold dataLoaderFlush
    cases ev s.queue <;> simp [load, assocFind]

/-- A witness for the amended C8 statement at concrete inputs. -/
theorem C8_witness :
    getCacheKey (Json.num 7) = getCacheKey (Json.num 7) ∧
      load (load emptyLoader (Json.num 7)).1 (Json.num 7) =
        ((load emptyLoader (Json.num 7)).1, (load emptyLoader (Json.num 7)).2) :=
  ⟨rfl, ((C8_amended_dataloader emptyLoader (fun _ => Except.ok [])
      (Json.num 7) (Json.num 7)).1 rfl)⟩

/-! ### `flushAllBatchQueues` (src/wrapMatchers.ts) against the real batch
context shape -/

/-- A value stored in the per-call `batchContext`: `flushAllBatchQueues`
expects plain arrays of (request, resolver) tuples, but `_evaluateInternal`
(src/wrapMatchers.ts) stores `DataLoader` instances under each loader key. -/
inductive BatchEntry where
  | queueArr (q : List (Json × Nat)) : BatchEntry
  | loader (s : LoaderState) : BatchEntry

/-- What `flushAllBatchQueues` looks for on the matcher it finds in the map:
an `evaluateBatch` function (or not). -/
structure FlushMatcher where
  evaluateBatch : Option BatchEval

/-- `flushAllBatchQueues(batchContext, matchers)`: iterate the entries; an
entry that is not an array (`Array.isArray` fails — in particular every
`DataLoader` instance) is skipped untouched; a nonempty array entry is reset
to `[]`, then if the matcher under the same key has an `evaluateBatch`
function it is invoked with the drained queue, and if it throws every
resolver of that queue is resolved to `false`.  Returns the updated context
and the resolver settlements that occurred. -/
def flushAllBatchQueues (matchers : String → Option FlushMatcher) :
    List (String × BatchEntry) → List (String × BatchEntry) × List (Nat × Bool)
  | [] => ([], [])
  | (name, entry) :: tl =>
      let rest := flushAllBatchQueues matchers tl
      match entry with
      | BatchEntry.loader l => ((name, BatchEntry.loader l) :: rest.1, rest.2)
      | BatchEntry.queueArr q =>
          if q.length = 0 then ((name, BatchEntry.queueArr q) :: rest.1, rest.2)
          else
            match matchers name with
            | none => ((name, BatchEntry.queueArr []) :: rest.1, rest.2)
            | some m =>
                match m.evaluateBatch with
                | none => ((name, BatchEntry.queueArr []) :: rest.1, rest.2)
                | some f =>
                    match f q with
                    | Except.ok settles =>
                        ((name, BatchEntry.queueArr []) :: rest.1, settles ++ rest.2)
                    | Except.error _ =>
                        ((name, BatchEntry.queueArr []) :: rest.1,
                          (q.map fun p => (p.2, false)) ++ rest.2)

/-- A loader with one pending request whose resolver is promise 0. -/
def pendingLoader : LoaderState :=
  { queue := [(Json.null, 0)], scheduled := true,
    cache := [(getCacheKey Json.null, 0)], nextId := 1 }

/-- A batch evaluator that always throws. -/
def throwingEval : BatchEval := fun _ => Except.error "boom"

/-- C3 (code bug, evaluated at the failing input): during a real `matches()`
evaluation the batch context maps loader keys to `DataLoader` instances, not
arrays, so `flushAllBatchQueues` skips them entirely (`Array.isArray` is
false) and settles no resolver; and `DataLoader`'s own flush swallows a
throwing evaluator without invoking any resolver.  Hence with one pending
request and a throwing batch evaluator, no resolver is ever resolved (to
`false` or anything else): the pending promise is left unsettled, contrary
to the specified conversion of batch failures to the safe default. -/
theorem C3_code_bug_flush_skips_dataloaders :
    flushAllBatchQueues
        (fun n => if n = "m" then some { evaluateBatch := some throwingEval } else none)
        [("m", BatchEntry.loader pendingLoader)] =
      ([("m", BatchEntry.loader pendingLoader)], []) ∧
    (dataLoaderFlush pendingLoader throwingEval).2.2 = [] ∧
    pendingLoader.queue.length = 1 :=
  ⟨rfl, rfl, rfl⟩

/-! ### The matcher definition factory `createMatcher` (src/matcher.ts) -/

/-- A matcher configuration as passed to `createMatcher`: an optional single
evaluator, an optional batch evaluator, and the remaining fields (argument
schema, `toNode`, ...), which the factory spreads through untouched. -/
structure MatcherConfig (α β γ : Type) where
  evaluate : Option α
  evaluateBatch : Option β
  rest : γ

/-- `createMatcher(config)`: if both `evaluate` and `evaluateBatch` are
provided, drop `evaluate` and keep the rest; otherwise return the
configuration unchanged.  No error path exists. -/
def createMatcher {α β γ : Type} (cfg : MatcherConfig α β γ) : MatcherConfig α β γ :=
  if cfg.evaluate.isSome && cfg.evaluateBatch.isSome then
    { evaluate := none, evaluateBatch := cfg.evaluateBatch, rest := cfg.rest }
  else
    cfg

/-- C9: when a configuration supplies both a single evaluator and a batch
evaluator, the factory discards the single evaluator and keeps only the
batch evaluator, raising no error (the function is total); every other
configuration field passes through unchanged, and configurations that do not
supply both evaluators are returned as-is. -/
theorem C9_createMatcher_batch_wins :
    ∀ (α β γ : Type) (cfg : MatcherConfig α β γ),
      createMatcher cfg =
        { evaluate :=
            if cfg.evaluate.isSome && cfg.evaluateBatch.isSome then none
            else cfg.evaluate,
          evaluateBatch := cfg.evaluateBatch,
          rest := cfg.rest } := by
  intro α β γ cfg
  by_cases h : cfg.evaluate.isSome && cfg.evaluateBatch.isSome
  · simp [createMatcher, h]
  · simp [createMatcher, h]

/-! ### The logical operators (src/operators.ts) -/

/-- The settled outcome of one matcher evaluation: a success/failure-tagged
boolean (`ResultAsync<boolean, Error>` once settled), errors modelled by
their message. -/
abbrev OpResult := Except String Bool

/-- An operand of a logical operator: an already-constructed matcher
definition's `_evaluateInternal`, as a state transformer returning a settled
tagged result.  State threading models the sequential launch order of the
single-threaded scheduler. -/
abbrev Operand (σ : Type) := σ → σ × OpResult

/-- `Promise.all(matchers.map(m => m._evaluateInternal(context)))`: every
operand is launched, in operand order, and all results collected positionally
— no operand is skipped whatever the earlier results are. -/
def evalOps {σ : Type} : List (Operand σ) → σ → σ × List OpResult
  | [], s => (s, [])
  | f :: fs, s =>
      let fst := f s
      let rest := evalOps fs fst.1
      (rest.1, fst.2 :: rest.2)

/-- The `for (const r of results) if (r.isErr()) throw r.error` loop: the
first error in the (positional) results array. -/
def listFirstError {ε : Type} : List (Except ε Bool) → Option ε
  | [] => none
  | Except.error e :: _ => some e
  | Except.ok _ :: tl => listFirstError tl

/-- `results.every(r => r.unwrapOr(false))`. -/
def allOk {ε : Type} : List (Except ε Bool) → Bool
  | [] => true
  | Except.ok b :: tl => b && allOk tl
  | Except.error _ :: _ => false

/-- `results.some(r => r.unwrapOr(false))`. -/
def anyOk {ε : Type} : List (Except ε Bool) → Bool
  | [] => false
  | Except.ok b :: tl => b || anyOk tl
  | Except.error _ :: tl => anyOk tl

/-- The combination the `and` operator performs on the settled results
array: throw the first positional error, otherwise the conjunction of the
unwrapped booleans. -/
def combineAnd {ε : Type} (rs : List (Except ε Bool)) : Except ε Bool :=
  match listFirstError rs with
  | some e => Except.error e
  | none => Except.ok (allOk rs)

/-- The combination the `or` operator performs: first positional error,
otherwise the disjunction. -/
def combineOr {ε : Type} (rs : List (Except ε Bool)) : Except ε Bool :=
  match listFirstError rs with
  | some e => Except.error e
  | none => Except.ok (anyOk rs)

/-- `createLogicalOperators().and`: evaluate all operands, then combine. -/
def andOp {σ : Type} (ops : List (Operand σ)) : Operand σ := fun s =>
  let run := evalOps ops s
  (run.1, combineAnd run.2)

/-- `createLogicalOperators().or`. -/
def orOp {σ : Type} (ops : List (Operand σ)) : Operand σ := fun s =>
  let run := evalOps ops s
  (run.1, combineOr run.2)

/-- `createLogicalOperators().not`: failure propagates, otherwise negate. -/
def notOp {σ : Type} (op : Operand σ) : Operand σ := fun s =>
  let run := op s
  (run.1, match run.2 with
          | Except.error e => Except.error e
          | Except.ok b => Except.ok (!b))

/-- The state after evaluating every operand in order (all side effects —
caching, batch enqueueing — occur). -/
def runAll {σ : Type} (ops : List (Operand σ)) (s : σ) : σ :=
  ops.foldl (fun st f => (f st).1) s

theorem evalOps_fst {σ : Type} :
    ∀ (ops : List (Operand σ)) (s : σ), (evalOps ops s).1 = runAll ops s := by
  intro ops
  induction ops with
  | nil => intro s; rfl
  | cons f fs ih =>
      intro s
      show (evalOps fs (f s).1).1 = runAll fs (f s).1
      exact ih (f s).1

/-- The always-true matcher (T in the claim's truth tables). -/
def alwaysTrueOp {σ : Type} : Operand σ := fun s => (s, Except.ok true)

/-- The always-false matcher (F in the claim's truth tables). -/
def alwaysFalseOp {σ : Type} : Operand σ := fun s => (s, Except.ok false)

/-- Operand results paired with the wall-clock completion tick of the
underlying promise (not observable by the combination code, which only sees
the positionally ordered results array `Promise.all` builds). -/
def insertTimed (p : Nat × OpResult) :
    List (Nat × OpResult) → List (Nat × OpResult)
  | [] => [p]
  | q :: tl => if p.1 ≤ q.1 then p :: q :: tl else q :: insertTimed p tl

/-- Sort timed results by completion tick. -/
def sortTimed : List (Nat × OpResult) → List (Nat × OpResult)
  | [] => []
  | p :: tl => insertTimed p (sortTimed tl)

/-- Modelled from the claim's words "the first one encountered in completion
order": the first error among the results ordered by completion tick. -/
def firstErrorByCompletion (timed : List (Nat × OpResult)) : Option String :=
  listFirstError ((sortTimed timed).map Prod.snd)

/-- C7 counterexample: two failing operands, the first (operand order)
completing at tick 5 with error "A", the second at tick 1 with error "B".
The code combines the positionally ordered results array and propagates "A"
(the first error in operand order); the first failure in completion order is
"B".  The propagated failure is therefore not "the first one encountered in
completion order". -/
theorem C7_counterexample_completion_order :
    combineAnd ([(5, Except.error "A"), (1, Except.error "B")].map Prod.snd) =
        Except.error "A" ∧
      firstErrorByCompletion [(5, Except.error "A"), (1, Except.error "B")] =
        some "B" ∧
      ("A" : String) ≠ "B" :=
  ⟨rfl, rfl, by decide⟩

/-- C7 (amended): the logical operators evaluate every operand (the final
state is the fold of all operand effects in launch order — no
short-circuiting); if any operand reports failure, the first failing operand
in operand (positional) order is propagated, regardless of completion times;
otherwise AND returns the conjunction, OR the disjunction, and NOT negates
its single operand, satisfying the truth tables and(T,T)=true,
and(T,F)=false, or(F,T)=true, or(F,F)=false, not(T)=false. -/
theorem C7_amended_operators :
    ∀ (σ : Type) (ops : List (Operand σ)) (op1 : Operand σ) (s : σ),
      ((andOp ops s).1 = runAll ops s ∧ (orOp ops s).1 = runAll ops s ∧
        (notOp op1 s).1 = (op1 s).1) ∧
      ((andOp ops s).2 = combineAnd (evalOps ops s).2 ∧
        (orOp ops s).2 = combineOr (evalOps ops s).2 ∧
        (notOp op1 s).2 = (match (op1 s).2 with
                           | Except.error e => Except.error e
                           | Except.ok b => Except.ok (!b))) ∧
      ((andOp [alwaysTrueOp, alwaysTrueOp] s).2 = Except.ok true ∧
        (andOp [alwaysTrueOp, alwaysFalseOp] s).2 = Except.ok false ∧
        (orOp [alwaysFalseOp, alwaysTrueOp] s).2 = Except.ok true ∧
        (orOp [alwaysFalseOp, alwaysFalseOp] s).2 = Except.ok false ∧
        (notOp alwaysTrueOp s).2 = Except.ok false) := by
  intro σ ops op1 s
  refine ⟨⟨?_, ?_, rfl⟩, ⟨rfl, rfl, rfl⟩, rfl, rfl, rfl, rfl, rfl⟩
  · show (evalOps ops s).1 = runAll ops s
    exact evalOps_fst ops s
  · show (evalOps ops s).1 = runAll ops s
    exact evalOps_fst ops s

/-! ### The evaluation entry point `_evaluateInternal` with the per-call
result cache (src/wrapMatchers.ts), over matcher expression trees -/

/-- The result of a standard-schema `validate` call on a matcher argument:
a list of issues (joined here into one message), a validated value, or a
result carrying neither issues nor a value. -/
inductive ValidationResult where
  | issues (message : String) : ValidationResult
  | value (v : Json) : ValidationResult
  | noValue : ValidationResult

/-- A registered single-evaluator matcher: its optional argument schema and
its user evaluator (receiving the subject and, for schema matchers, the
validated argument), whose throw/rejection is modelled as an error message. -/
structure SMatcher where
  argSchema : Option (OptJson → ValidationResult)
  evaluate : Json → OptJson → Except String Bool

/-- The typed errors of src/errors.ts surfaced by the evaluation layer. -/
inductive MatchError where
  | argError (message : String) (matcherName : String) (segmentName : String) : MatchError
  | evalError (matcherName : String) (segmentName : String) (cause : String) : MatchError
deriving DecidableEq

mutual

/-- A matcher expression tree: leaves reference a registered matcher (with
its bound argument), interior nodes are the logical operators. -/
inductive Node where
  | leaf (name : String) (arg : OptJson) : Node
  | andN (children : NodeList) : Node
  | orN (children : NodeList) : Node
  | notN (child : Node) : Node

/-- An ordered list of operand nodes. -/
inductive NodeList where
  | nil : NodeList
  | cons (hd : Node) (tl : NodeList) : NodeList

end

/-- The per-call evaluation state: the matcher-result cache (`matcherCache`,
a fresh `Map` per `matches()` call), plus effect logs recording, by cache
key, each user-evaluator invocation and each argument-schema validation run. -/
structure EvalState where
  cache : List (List Char × Except MatchError Bool)
  invocations : List (List Char)
  validationRuns : List (List Char)

/-- The state at the start of a `matches()` call. -/
def emptyEvalState : EvalState := { cache := [], invocations := [], validationRuns := [] }

/-- The outcome of dispatching to the user evaluator: a sync/async failure
is wrapped into a `MatcherEvaluationError` carrying the matcher and segment
names (segment name defaulting to "unknown"). -/
def dispatchOutcome (reg : String → SMatcher) (subject : Json) (name : String)
    (segName : Option String) (argv : OptJson) : Except MatchError Bool :=
  match (reg name).evaluate subject argv with
  | Except.ok b => Except.ok b
  | Except.error cause =>
      Except.error (MatchError.evalError name (segName.getD "unknown") cause)

/-- `_evaluateInternal` for a matcher leaf: check the per-call cache first
(no re-validation, no re-evaluation on a hit); otherwise validate the bound
argument if the matcher has a schema — a validation failure produces a
`MatcherArgumentError` and is NOT stored in the cache — and then dispatch to
the user evaluator, storing the outcome (success or wrapped evaluation
error) in the cache under the key before returning it. -/
def evalLeaf (reg : String → SMatcher) (subject : Json) (segName : Option String)
    (name : String) (arg : OptJson) (s : EvalState) :
    EvalState × Except MatchError Bool :=
  let key := makeMatcherCacheKey name arg
  match assocFind s.cache key with
  | some r => (s, r)
  | none =>
      match (reg name).argSchema with
      | none =>
          let outcome := dispatchOutcome reg subject name segName none
          ({ cache := (key, outcome) :: s.cache,
             invocations := s.invocations ++ [key],
             validationRuns := s.validationRuns }, outcome)
      | some validate =>
          let s1 : EvalState := { s with validationRuns := s.validationRuns ++ [key] }
          match validate arg with
          | ValidationResult.issues msg =>
              (s1, Except.error (MatchError.argError msg name (segName.getD "unknown")))
          | ValidationResult.noValue =>
              (s1, Except.error (MatchError.argError
                "Matcher argument schema did not return a valid value" name
                (segName.getD "unknown")))
          | ValidationResult.value v =>
              let outcome := dispatchOutcome reg subject name segName (some v)
              ({ cache := (key, outcome) :: s1.cache,
                 invocations := s1.invocations ++ [key],
                 validationRuns := s1.validationRuns }, outcome)

mutual

/-- Evaluate a matcher expression tree: leaves via `evalLeaf`, interior
nodes via the logical operators (all children evaluated, first positional
error propagated, else conjunction/disjunction/negation). -/
def evalNode (reg : String → SMatcher) (subject : Json) (segName : Option String) :
    Node → EvalState → EvalState × Except MatchError Bool
  | Node.leaf name arg, s => evalLeaf reg subject segName name arg s
  | Node.andN cs, s =>
      let run := evalNodeList reg subject segName cs s
      (run.1, combineAnd run.2)
  | Node.orN cs, s =>
      let run := evalNodeList reg subject segName cs s
      (run.1, combineOr run.2)
  | Node.notN c, s =>
      let run := evalNode reg subject segName c s
      (run.1, match run.2 with
              | Except.error e => Except.error e
              | Except.ok b => Except.ok (!b))

/-- Evaluate every child in order, collecting the settled results. -/
def evalNodeList (reg : String → SMatcher) (subject : Json) (segName : Option String) :
    NodeList → EvalState → EvalState × List (Except MatchError Bool)
  | NodeList.nil, s => (s, [])
  | NodeList.cons x tl, s =>
      let fst := evalNode reg subject segName x s
      let rest := evalNodeList reg subject segName tl fst.1
      (rest.1, fst.2 :: rest.2)

end

/-- Number of occurrences of a cache key in an effect log. -/
def keyCount (k : List Char) : List (List Char) → Nat
  | [] => 0
  | x :: tl => (if x = k then 1 else 0) + keyCount k tl

/-- Whether the per-call cache has an entry under `k`. -/
def cacheHas (s : EvalState) (k : List Char) : Bool :=
  (assocFind s.cache k).isSome

/-- Whether the bound argument of matcher `name` passes its schema (true
when the matcher has no schema). -/
def validOk (reg : String → SMatcher) (name : String) (arg : OptJson) : Bool :=
  match (reg name).argSchema with
  | none => true
  | some validate =>
      match validate arg with
      | ValidationResult.value _ => true
      | ValidationResult.issues _ => false
      | ValidationResult.noValue => false

mutual

/-- Whether the tree contains a matcher leaf whose cache key is `k`. -/
def hasKeyLeaf (k : List Char) : Node → Bool
  | Node.leaf name arg => decide (makeMatcherCacheKey name arg = k)
  | Node.andN cs => hasKeyLeafList k cs
  | Node.orN cs => hasKeyLeafList k cs
  | Node.notN c => hasKeyLeaf k c

/-- List version of `hasKeyLeaf`. -/
def hasKeyLeafList (k : List Char) : NodeList → Bool
  | NodeList.nil => false
  | NodeList.cons x tl => hasKeyLeaf k x || hasKeyLeafList k tl

end

mutual

/-- Whether every leaf of the tree with cache key `k` has an argument that
passes its matcher's schema. -/
def keyLeavesOk (reg : String → SMatcher) (k : List Char) : Node → Bool
  | Node.leaf name arg =>
      !(decide (makeMatcherCacheKey name arg = k)) || validOk reg name arg
  | Node.andN cs => keyLeavesOkList reg k cs
  | Node.orN cs => keyLeavesOkList reg k cs
  | Node.notN c => keyLeavesOk reg k c

/-- List version of `keyLeavesOk`. -/
def keyLeavesOkList (reg : String → SMatcher) (k : List Char) : NodeList → Bool
  | NodeList.nil => true
  | NodeList.cons x tl => keyLeavesOk reg k x && keyLeavesOkList reg k tl

end

theorem keyCount_append (k : List Char) (a b : List (List Char)) :
    keyCount k (a ++ b) = keyCount k a + keyCount k b := by
  induction a with
  | nil => simp [keyCount]
  | cons x tl ih => simp [keyCount, ih]; omega

theorem keyCount_eq_zero_of_not_mem {k : List Char} {l : List (List Char)}
    (h : k ∉ l) : keyCount k l = 0 := by
  induction l with
  | nil => rfl
  | cons x tl ih =>
      simp only [List.mem_cons, not_or] at h
      have hx : ¬ x = k := fun hx => h.1 hx.symm
      simp [keyCount, ih h.2, hx]

theorem one_le_keyCount_of_mem {k : List Char} {l : List (List Char)}
    (h : k ∈ l) : 1 ≤ keyCount k l := by
  induction l with
  | nil => simp at h
  | cons x tl ih =>
      simp only [keyCount]
      by_cases hx : x = k
      · simp only [if_pos hx]; omega
      · simp only [if_neg hx]
        rcases List.mem_cons.mp h with h1 | h1
        · exact absurd h1.symm hx
        · have := ih h1
          omega

/-- The two invariants of the per-call cache discipline: every key is
invoked at most once, and every invoked key is present in the cache. -/
def EvalInv (s : EvalState) : Prop :=
  ∀ k, keyCount k s.invocations ≤ 1 ∧ (k ∈ s.invocations → cacheHas s k = true)

/-- How one evaluation step may change the state: invocations only grow (at
the end), cached keys stay cached, any newly cached key was invoked, and the
cache discipline is preserved. -/
def Evolves (s s2 : EvalState) : Prop :=
  (∃ a, s2.invocations = s.invocations ++ a) ∧
  (∀ k, cacheHas s k = true → cacheHas s2 k = true) ∧
  (∀ k, cacheHas s2 k = true → cacheHas s k = true ∨ k ∈ s2.invocations) ∧
  (EvalInv s → EvalInv s2)

theorem evolves_refl (s : EvalState) : Evolves s s :=
  ⟨⟨[], (List.append_nil _).symm⟩, fun _ h => h, fun _ h => Or.inl h, id⟩

theorem evolves_trans {a b c : EvalState} (h1 : Evolves a b) (h2 : Evolves b c) :
    Evolves a c := by
  obtain ⟨⟨x1, hx1⟩, cm1, cn1, iv1⟩ := h1
  obtain ⟨⟨x2, hx2⟩, cm2, cn2, iv2⟩ := h2
  refine ⟨⟨x1 ++ x2, by rw [hx2, hx1, List.append_assoc]⟩,
    fun k h => cm2 k (cm1 k h), ?_, fun hI => iv2 (iv1 hI)⟩
  intro k h
  rcases cn2 k h with h' | h'
  · rcases cn1 k h' with h'' | h''
    · exact Or.inl h''
    · exact Or.inr (by rw [hx2]; exact List.mem_append_left _ h'')
  · exact Or.inr h'

theorem cacheHas_cons {key k : List Char} {out : Except MatchError Bool}
    {cc : List (List Char × Except MatchError Bool)} {inv vr : List (List Char)} :
    cacheHas { cache := (key, out) :: cc, invocations := inv, validationRuns := vr } k =
      if key = k then true else (assocFind cc k).isSome := by
  by_cases h : key = k <;> simp [cacheHas, assocFind, h]

/-- The validation-only step (schema reported issues or no value): the cache
and the invocation log are untouched. -/
theorem evolves_validationOnly (s : EvalState) (key : List Char) :
    Evolves s { s with validationRuns := s.validationRuns ++ [key] } := by
  refine ⟨⟨[], (List.append_nil _).symm⟩, fun k h => h, fun k h => Or.inl h, fun hI k => ?_⟩
  exact hI k

/-- The dispatch step on a cache miss: the outcome is cached under the key
and the invocation is logged; the at-most-once and invoked-implies-cached
invariants survive. -/
theorem evolves_dispatch {s : EvalState} {key : List Char}
    {out : Except MatchError Bool} {vr : List (List Char)}
    (hmiss : assocFind s.cache key = none) :
    Evolves s { cache := (key, out) :: s.cache,
                invocations := s.invocations ++ [key], validationRuns := vr } := by
  refine ⟨⟨[key], rfl⟩, ?_, ?_, ?_⟩
  · intro k h
    rw [cacheHas_cons]
    by_cases hk : key = k
    · simp [hk]
    · simpa [hk, cacheHas] using h
  · intro k h
    rw [cacheHas_cons] at h
    by_cases hk : key = k
    · exact Or.inr (by simp [← hk])
    · exact Or.inl (by simpa [hk, cacheHas] using h)
  · intro hI k
    have hkey_not_mem : key ∉ s.invocations := by
      intro hmem
      have := (hI key).2 hmem
      simp [cacheHas, hmiss] at this
    constructor
    · rw [keyCount_append]
      by_cases hk : k = key
      · subst hk
        rw [keyCount_eq_zero_of_not_mem hkey_not_mem]
        simp [keyCount]
      · have hx : ¬ key = k := fun h => hk h.symm
        have : keyCount k [key] = 0 := by simp [keyCount, hx]
        rw [this]
        have := (hI k).1
        omega
    · intro hmem
      rw [cacheHas_cons]
      by_cases hk : key = k
      · simp [hk]
      · have hmem2 : k ∈ s.invocations := by
          rcases List.mem_append.mp hmem with h | h
          · exact h
          · simp at h; exact absurd h.symm hk
        have := (hI k).2 hmem2
        simpa [hk, cacheHas] using this

theorem evalLeaf_evolves (reg : String → SMatcher) (subject : Json)
    (segName : Option String) (name : String) (arg : OptJson) (s : EvalState) :
    Evolves s (evalLeaf reg subject segName name arg s).1 := by
  unfold evalLeaf
  cases hfind : assocFind s.cache (makeMatcherCacheKey name arg) with
  | some r => simp only [hfind]; exact evolves_refl s
  | none =>
      simp only [hfind]
      cases hsch : (reg name).argSchema with
      | none => simp only [hsch]; exact evolves_dispatch hfind
      | some validate =>
          simp only [hsch]
          cases hval : validate arg with
          | issues msg => simp only [hval]; exact evolves_validationOnly s _
          | noValue => simp only [hval]; exact evolves_validationOnly s _
          | value v => simp only [hval]; exact evolves_dispatch hfind

theorem evalLeaf_hits {reg : String → SMatcher} {subject : Json}
    {segName : Option String} {name : String} {arg : OptJson} {s : EvalState}
    {k : List Char} (hkey : makeMatcherCacheKey name arg = k)
    (hok : validOk reg name arg = true) :
    cacheHas s k = true ∨ k ∈ (evalLeaf reg subject segName name arg s).1.invocations := by
  subst hkey
  unfold evalLeaf
  cases hfind : assocFind s.cache (makeMatcherCacheKey name arg) with
  | some r =>
      left
      simp [cacheHas, hfind]
  | none =>
      right
      simp only [hfind]
      cases hsch : (reg name).argSchema with
      | none => simp only [hsch]; simp
      | some validate =>
          simp only [hsch]
          cases hval : validate arg with
          | issues msg => simp [validOk, hsch, hval] at hok
          | noValue => simp [validOk, hsch, hval] at hok
          | value v => simp only [hval]; simp

mutual

/-- Combined caching lemma for tree evaluation: the state evolves under the
cache discipline, and any key that occurs as a leaf whose argument passes
validation is either already cached at the start or invoked by the end. -/
theorem evalNode_main (reg : String → SMatcher) (subject : Json)
    (segName : Option String) :
    ∀ (t : Node) (s : EvalState),
      Evolves s (evalNode reg subject segName t s).1 ∧
      (∀ k, hasKeyLeaf k t = true → keyLeavesOk reg k t = true →
        (cacheHas s k = true ∨ k ∈ (evalNode reg subject segName t s).1.invocations)) := by
  intro t s
  cases t with
  | leaf name arg =>
      refine ⟨evalLeaf_evolves reg subject segName name arg s, ?_⟩
      intro k hk hok
      have hkey : makeMatcherCacheKey name arg = k := by
        simpa [hasKeyLeaf] using hk
      have hvalid : validOk reg name arg = true := by
        simp only [keyLeavesOk, hkey] at hok
        simpa using hok
      exact evalLeaf_hits hkey hvalid
  | andN cs =>
      obtain ⟨h1, h2⟩ := evalNodeList_main reg subject segName cs s
      exact ⟨h1, fun k hk hok => h2 k (by simpa [hasKeyLeaf] using hk)
        (by simpa [keyLeavesOk] using hok)⟩
  | orN cs =>
      obtain ⟨h1, h2⟩ := evalNodeList_main reg subject segName cs s
      exact ⟨h1, fun k hk hok => h2 k (by simpa [hasKeyLeaf] using hk)
        (by simpa [keyLeavesOk] using hok)⟩
  | notN c =>
      obtain ⟨h1, h2⟩ := evalNode_main reg subject segName c s
      exact ⟨h1, fun k hk hok => h2 k (by simpa [hasKeyLeaf] using hk)
        (by simpa [keyLeavesOk] using hok)⟩

/-- List version of `evalNode_main`. -/
theorem evalNodeList_main (reg : String → SMatcher) (subject : Json)
    (segName : Option String) :
    ∀ (l : NodeList) (s : EvalState),
      Evolves s (evalNodeList reg subject segName l s).1 ∧
      (∀ k, hasKeyLeafList k l = true → keyLeavesOkList reg k l = true →
        (cacheHas s k = true ∨ k ∈ (evalNodeList reg subject segName l s).1.invocations)) := by
  intro l s
  cases l with
  | nil =>
      refine ⟨evolves_refl s, ?_⟩
      intro k hk _
      simp [hasKeyLeafList] at hk
  | cons x tl =>
      obtain ⟨hx1, hx2⟩ := evalNode_main reg subject segName x s
      obtain ⟨ht1, ht2⟩ :=
        evalNodeList_main reg subject segName tl (evalNode reg subject segName x s).1
      have hfinal :
          (evalNodeList reg subject segName (NodeList.cons x tl) s).1 =
            (evalNodeList reg subject segName tl (evalNode reg subject segName x s).1).1 := rfl
      refine ⟨?_, ?_⟩
      · rw [hfinal]; exact evolves_trans hx1 ht1
      · intro k hk hok
        rw [hfinal]
        simp only [hasKeyLeafList, Bool.or_eq_true] at hk
        simp only [keyLeavesOkList, Bool.and_eq_true] at hok
        obtain ⟨⟨a1, ha1⟩, -, -, -⟩ := ht1
        rcases hk with hk | hk
        · rcases hx2 k hk hok.1 with h | h
          · exact Or.inl h
          · exact Or.inr (by rw [ha1]; exact List.mem_append_left _ h)
        · rcases ht2 k hk hok.2 with h | h
          · obtain ⟨-, -, hnew, -⟩ := hx1
            rcases hnew k h with h' | h'
            · exact Or.inl h'
            · exact Or.inr (by rw [ha1]; exact List.mem_append_left _ h')
          · exact Or.inr h

end

/-- The invocation log of two separate `matches()` calls evaluating the same
tree: each call constructs a fresh `matcherCache` (`new Map()` in
src/segment.ts), so each run starts from the empty state. -/
def twoCallInvocations (reg : String → SMatcher) (subject : Json)
    (segName : Option String) (t : Node) : List (List Char) :=
  (evalNode reg subject segName t emptyEvalState).1.invocations ++
    (evalNode reg subject segName t emptyEvalState).1.invocations

theorem evalInv_empty : EvalInv emptyEvalState := by
  intro k
  constructor
  · simp [emptyEvalState, keyCount]
  · intro h
    simp [emptyEvalState] at h

/-- C5: within one `matches()` call, a matcher referenced any number of
times (directly or nested under AND/OR/NOT) with structurally equal
arguments (hence a shared cache key) has its user evaluator invoked at most
once, and exactly once when it is referenced at least once and its bound
arguments pass validation; across two separate `matches()` calls of the
same tree the evaluator runs once per call (two invocations in total),
because the result cache is created fresh per call and never shared. -/
theorem C5_within_call_caching :
    ∀ (reg : String → SMatcher) (subject : Json) (segName : Option String)
      (t : Node) (k : List Char),
      keyCount k (evalNode reg subject segName t emptyEvalState).1.invocations ≤ 1 ∧
      (hasKeyLeaf k t = true → keyLeavesOk reg k t = true →
        keyCount k (evalNode reg subject segName t emptyEvalState).1.invocations = 1) ∧
      (hasKeyLeaf k t = true → keyLeavesOk reg k t = true →
        keyCount k (twoCallInvocations reg subject segName t) = 2) := by
  intro reg subject segName t k
  obtain ⟨⟨-, -, -, hinv⟩, hhits⟩ := evalNode_main reg subject segName t emptyEvalState
  have hle : keyCount k (evalNode reg subject segName t emptyEvalState).1.invocations ≤ 1 :=
    (hinv evalInv_empty k).1
  have hone : hasKeyLeaf k t = true → keyLeavesOk reg k t = true →
      keyCount k (evalNode reg subject segName t emptyEvalState).1.invocations = 1 := by
    intro hk hok
    rcases hhits k hk hok with h | h
    · simp [cacheHas, emptyEvalState, assocFind] at h
    · have := one_le_keyCount_of_mem h
      omega
  refine ⟨hle, hone, fun hk hok => ?_⟩
  rw [twoCallInvocations, keyCount_append, hone hk hok]

/-- A registry for the C5 witness: one schema matcher accepting every
argument and always evaluating to true. -/
def witnessReg : String → SMatcher := fun _ =>
  { argSchema := some (fun a =>
      match a with
      | some v => ValidationResult.value v
      | none => ValidationResult.noValue),
    evaluate := fun _ _ => Except.ok true }

/-- The object `(a:1, b:2)`. -/
def wObjAB : Json :=
  Json.obj (JsonObj.cons "a" (Json.num 1) (JsonObj.cons "b" (Json.num 2) JsonObj.nil))

/-- The object `(b:2, a:1)`: structurally equal to `wObjAB` up to key order. -/
def wObjBA : Json :=
  Json.obj (JsonObj.cons "b" (Json.num 2) (JsonObj.cons "a" (Json.num 1) JsonObj.nil))

/-- A tree referencing matcher `m` twice, with key-order-variant arguments
that share one cache key. -/
def wTree : Node :=
  Node.andN (NodeList.cons (Node.leaf "m" (some wObjAB))
    (NodeList.cons (Node.leaf "m" (some wObjBA)) NodeList.nil))

/-- The shared cache key of both references. -/
def wKey : List Char := makeMatcherCacheKey "m" (some wObjAB)

/-- A witness for C5 at concrete inputs: the duplicated (key-order-variant)
reference evaluates exactly once within one call, and twice across two
calls. -/
theorem C5_witness :
    hasKeyLeaf wKey wTree = true ∧ keyLeavesOk witnessReg wKey wTree = true ∧
      keyCount wKey (evalNode witnessReg Json.null none wTree emptyEvalState).1.invocations = 1 ∧
      keyCount wKey (twoCallInvocations witnessReg Json.null none wTree) = 2 :=
  ⟨by decide, by decide,
    (C5_within_call_caching witnessReg Json.null none wTree wKey).2.1 (by decide) (by decide),
    (C5_within_call_caching witnessReg Json.null none wTree wKey).2.2 (by decide) (by decide)⟩

/-- The tree `AND(leaf, leaf)` duplicating one matcher reference. -/
def dupTree (name : String) (arg : OptJson) : Node :=
  Node.andN (NodeList.cons (Node.leaf name arg)
    (NodeList.cons (Node.leaf name arg) NodeList.nil))

/-- C10: argument-validation failures are never stored in the per-call
result cache: on a cache miss with a failing schema, `_evaluateInternal`
returns a `MatcherArgumentError` without a `cache.set` (the cache and the
invocation log are unchanged; only the validation run is recorded), so each
duplicate reference within one call re-runs validation and re-produces the
argument error (two validation runs, zero evaluator invocations, empty
cache); whereas when the argument passes validation, the dispactched
outcome is cached and shared: duplicate references validate and evaluate
only once. -/
theorem C10_validation_not_cached :
    ∀ (reg : String → SMatcher) (subject : Json) (segName : Option String)
      (name : String) (arg : OptJson) (f : OptJson → ValidationResult)
      (msg : String) (s : EvalState) (v : Json),
      (reg name).argSchema = some f →
      ((f arg = ValidationResult.issues msg →
        assocFind s.cache (makeMatcherCacheKey name arg) = none →
        evalLeaf reg subject segName name arg s =
          ({ cache := s.cache, invocations := s.invocations,
             validationRuns := s.validationRuns ++ [makeMatcherCacheKey name arg] },
           Except.error (MatchError.argError msg name (segName.getD "unknown")))) ∧
      (f arg = ValidationResult.issues msg →
        evalNode reg subject segName (dupTree name arg) emptyEvalState =
          ({ cache := [], invocations := [],
             validationRuns := [makeMatcherCacheKey name arg, makeMatcherCacheKey name arg] },
           Except.error (MatchError.argError msg name (segName.getD "unknown")))) ∧
      (f arg = ValidationResult.value v →
        (evalNode reg subject segName (dupTree name arg) emptyEvalState).1 =
          { cache := [(makeMatcherCacheKey name arg,
              dispatchOutcome reg subject name segName (some v))],
            invocations := [makeMatcherCacheKey name arg],
            validationRuns := [makeMatcherCacheKey name arg] })) := by
  intro reg subject segName name arg f msg s v hsch
  refine ⟨fun hval hmiss => ?_, fun hval => ?_, fun hval => ?_⟩
  · simp [evalLeaf, hmiss, hsch, hval]
  · simp [dupTree, evalNode, evalNodeList, evalLeaf, emptyEvalState, assocFind,
      hsch, hval, combineAnd, listFirstError]
  · simp [dupTree, evalNode, evalNodeList, evalLeaf, emptyEvalState, assocFind,
      hsch, hval]

/-- A schema rejecting every argument, for the C10 witness. -/
def rejectingReg : String → SMatcher := fun _ =>
  { argSchema := some (fun _ => ValidationResult.issues "bad arg"),
    evaluate := fun _ _ => Except.ok true }

/-- A witness for C10 at concrete inputs: a failing argument is re-validated
by the duplicate reference and nothing is cached; a passing argument is
validated once and its outcome cached. -/
theorem C10_witness :
    (rejectingReg "m").argSchema = some (fun _ => ValidationResult.issues "bad arg") ∧
      evalNode rejectingReg Json.null none (dupTree "m" (some (Json.num 1))) emptyEvalState =
        ({ cache := [], invocations := [],
           validationRuns := [makeMatcherCacheKey "m" (some (Json.num 1)),
             makeMatcherCacheKey "m" (some (Json.num 1))] },
         Except.error (MatchError.argError "bad arg" "m" "unknown")) :=
  ⟨rfl,
    (C10_validation_not_cached rejectingReg Json.null none "m" (some (Json.num 1))
      (fun _ => ValidationResult.issues "bad arg") "bad arg" emptyEvalState
      (Json.num 0) rfl).2.1 rfl⟩

/-! ### The matcher factory memoization layer (src/wrapMatchers.ts) -/

/-- A constructed `MatcherDefinition` object: its allocation identity (each
object literal is a fresh allocation; reference equality is identity of the
stored record), whether the construction site applied `Object.freeze`, and
the name/argument it is bound to. -/
structure MatcherInstance where
  id : Nat
  frozen : Bool
  matcherName : String
  argKey : List Char
deriving DecidableEq

/-- The closure state of one wrapped matcher factory: the per-matcher memo
table keyed by `stableStringify(arg)` (for schema matchers), the lazily
built singleton (for no-argument matchers), and the allocation counter. -/
structure FactoryState where
  memo : List (List Char × MatcherInstance)
  single : Option MatcherInstance
  nextId : Nat

/-- The state of a freshly wrapped matcher factory. -/
def initFactoryState : FactoryState := { memo := [], single := none, nextId := 0 }

/-- The schema-argument factory: look the argument's canonical hash up in
the memo; on a miss, build a fresh matcher definition — `Object.freeze`d in
both the batch and the single-evaluator branch of the source — and memoize
it. -/
def callArgFactory (name : String) (st : FactoryState) (arg : Json) :
    FactoryState × MatcherInstance :=
  let argKey := stableStringify arg
  match assocFind st.memo argKey with
  | some m => (st, m)
  | none =>
      let m : MatcherInstance :=
        { id := st.nextId, frozen := true, matcherName := name, argKey := argKey }
      ({ st with memo := (argKey, m) :: st.memo, nextId := st.nextId + 1 }, m)

/-- The no-argument factory: `if (matcher) return matcher` — lazily build
the singleton on first call (the source builds a plain object literal here,
with no `Object.freeze`), return the same instance ever after. -/
def callNoArgFactory (name : String) (st : FactoryState) :
    FactoryState × MatcherInstance :=
  match st.single with
  | some m => (st, m)
  | none =>
      let m : MatcherInstance :=
        { id := st.nextId, frozen := false, matcherName := name, argKey := [] }
      ({ st with single := some m, nextId := st.nextId + 1 }, m)

/-- Well-formedness of a factory state: every memoized instance is stored
under its own argument key, and the no-argument singleton, when built, came
from the (unfrozen) no-argument construction site. -/
def FactoryInv (st : FactoryState) : Prop :=
  (∀ p ∈ st.memo, p.2.argKey = p.1) ∧
    (∀ m, st.single = some m → m.frozen = false)

theorem factoryInv_init : FactoryInv initFactoryState :=
  ⟨fun p hp => absurd hp (List.not_mem_nil p), fun _ hm => Option.noConfusion hm⟩

theorem assocFind_mem {α : Type} :
    ∀ (l : List (List Char × α)) (key : List Char) (v : α),
      assocFind l key = some v → (key, v) ∈ l := by
  intro l
  induction l with
  | nil => intro key v h; simp [assocFind] at h
  | cons p tl ih =>
      intro key v h
      obtain ⟨pk, pv⟩ := p
      by_cases hk : pk = key
      · subst hk
        simp [assocFind] at h
        rw [← h]
        exact List.mem_cons_self _ _
      · simp only [assocFind, if_neg hk] at h
        exact List.mem_cons_of_mem _ (ih key v h)

theorem callArgFactory_argKey {name : String} {st : FactoryState} {arg : Json}
    (hinv : FactoryInv st) :
    (callArgFactory name st arg).2.argKey = stableStringify arg := by
  simp only [callArgFactory]
  cases hfind : assocFind st.memo (stableStringify arg) with
  | some m =>
      simp only [hfind]
      exact hinv.1 _ (assocFind_mem _ _ _ hfind)
  | none => simp only [hfind]

theorem callArgFactory_inv {name : String} {st : FactoryState} {arg : Json}
    (hinv : FactoryInv st) : FactoryInv (callArgFactory name st arg).1 := by
  simp only [callArgFactory]
  cases hfind : assocFind st.memo (stableStringify arg) with
  | some m => simpa only [hfind] using hinv
  | none =>
      simp only [hfind]
      refine ⟨?_, hinv.2⟩
      intro p hp
      rcases List.mem_cons.mp hp with h | h
      · rw [h]
      · exact hinv.1 p h

theorem callArgFactory_memo_hit {name : String} {st : FactoryState} {arg : Json} :
    assocFind (callArgFactory name st arg).1.memo (stableStringify arg) =
      some (callArgFactory name st arg).2 := by
  simp only [callArgFactory]
  cases hfind : assocFind st.memo (stableStringify arg) with
  | some m => simp [hfind]
  | none => simp [hfind, assocFind]

/-- C6 counterexample: the no-argument factory's lazily built singleton is a
plain object literal — the source applies `Object.freeze` only in the two
schema-argument construction sites — so the constructed singleton is NOT
frozen. -/
theorem C6_counterexample_noarg_not_frozen :
    (callNoArgFactory "m" initFactoryState).2.frozen = false := rfl

/-- C6 (amended): matcher factories are memoized by argument identity —
calling a schema-argument factory twice with deeply-equal arguments (equal
canonical forms) returns reference-identical `MatcherDefinition` instances
and leaves the memo untouched, while structurally different arguments yield
distinct instances; and a no-argument factory lazily builds a (non-frozen)
singleton on first call and returns that same instance on every subsequent
call. -/
theorem C6_amended_memoization :
    ∀ (name : String) (st : FactoryState) (a b : Json),
      FactoryInv st →
      FactoryInv (callArgFactory name st a).1 ∧
      (canon a = canon b →
        callArgFactory name (callArgFactory name st a).1 b =
          ((callArgFactory name st a).1, (callArgFactory name st a).2)) ∧
      (canon a ≠ canon b →
        (callArgFactory name (callArgFactory name st a).1 b).2 ≠
          (callArgFactory name st a).2) ∧
      (callNoArgFactory name (callNoArgFactory name st).1 =
        ((callNoArgFactory name st).1, (callNoArgFactory name st).2)) ∧
      (callNoArgFactory name st).2.frozen = false := by
  intro name st a b hinv
  have hinv1 := @callArgFactory_inv name st a hinv
  refine ⟨hinv1, fun heq => ?_, fun hne => ?_, ?_, ?_⟩
  · have hkey : stableStringify b = stableStringify a :=
      stableStringify_eq_iff.mpr heq.symm
    have hhit := @callArgFactory_memo_hit name st a
    generalize hpr : callArgFactory name st a = pr at hhit ⊢
    simp only [callArgFactory, hkey, hhit]
  · intro hcontra
    have h1 : (callArgFactory name (callArgFactory name st a).1 b).2.argKey =
        stableStringify b := callArgFactory_argKey hinv1
    have h2 : (callArgFactory name st a).2.argKey = stableStringify a :=
      callArgFactory_argKey hinv
    rw [hcontra, h2] at h1
    exact hne (stableStringify_eq_iff.mp h1)
  · cases hs : st.single with
    | some m => simp [callNoArgFactory, hs]
    | none => simp [callNoArgFactory, hs]
  · cases hs : st.single with
    | some m =>
        have := hinv.2 m hs
        simp [callNoArgFactory, hs, this]
    | none => simp [callNoArgFactory, hs]

/-- A witness for the amended C6 statement at concrete inputs: key-order
variants of one argument give the identical instance; different arguments
give distinct instances. -/
theorem C6_witness :
    canon wObjAB = canon wObjBA ∧
      callArgFactory "m" (callArgFactory "m" initFactoryState wObjAB).1 wObjBA =
        ((callArgFactory "m" initFactoryState wObjAB).1,
          (callArgFactory "m" initFactoryState wObjAB).2) ∧
      canon (Json.num 1) ≠ canon (Json.num 2) ∧
      (callArgFactory "m" (callArgFactory "m" initFactoryState (Json.num 1)).1
          (Json.num 2)).2 ≠
        (callArgFactory "m" initFactoryState (Json.num 1)).2 :=
  ⟨rfl,
    (C6_amended_memoization "m" initFactoryState wObjAB wObjBA factoryInv_init).2.1 rfl,
    by simp [canon],
    (C6_amended_memoization "m" initFactoryState (Json.num 1) (Json.num 2)
      factoryInv_init).2.2.1 (by simp [canon])⟩

/-! ### The segment evaluator `matches` (src/segment.ts) -/

/-- The context object handed to the error observer `onError`. -/
inductive ObsContext where
  | subjOnly (subject : Json) : ObsContext
  | segCtx (segmentName : String) (subject : Json) : ObsContext
  | matcherCtx (matcherName : String) (segmentName : String) (subject : Json) : ObsContext

/-- The observability side effects of one `matches()` call: the errors
passed to `logger.error` and the (error, context) pairs passed to the
`onError` observer, in order. -/
structure Effects where
  logged : List String
  observed : List (String × ObsContext)

/-- No side effects yet. -/
def noEffects : Effects := { logged := [], observed := [] }

/-- The awaited outcome of a tree evaluation: `some r` when the awaited
promise settles with the tagged result `r`, and `none` when it never
settles.  Non-settlement is reachable in the source: when a batch evaluator
throws, `DataLoader.flush` wraps the throw in a `ResultAsync` that is
discarded (`void Promise.resolve().then(() => this.flush())`) without
invoking any resolver, and `flushAllBatchQueues` skips the
`DataLoader`-shaped batch-context entries (`Array.isArray` is false), so the
promise behind the matcher's result stays pending and the `await` in
`matches` (src/segment.ts:385, and :151 in the ad-hoc path) suspends
forever. -/
abbrev EvalAwait := Option (Except String Bool)

/-- The observable outcome of resolving and evaluating a named segment
definition: the root matcher's name (extracted via `toNode()` by the
tracing wrapper) and the awaited outcome of the tree evaluation — settled
with a tagged result, or never settling at all. -/
structure SegRun where
  matcherName : String
  evalOutcome : EvalAwait

/-- The argument of `matches`: a registered (or not) segment name, or an
ad-hoc builder — whose synchronous construction may throw, and whose tree
evaluation is then awaited (settling with a tagged result, or never). -/
inductive MatchesArg where
  | named (name : String) : MatchesArg
  | adhoc (build : Except String EvalAwait) : MatchesArg

/-- The optional caller fallback: receives the error list and returns a
boolean, or itself throws/rejects. -/
abbrev Fallback := Option (List String → Except String Bool)

/-- The structural error for an unregistered segment name. -/
def unregisteredMsg (name : String) : String :=
  "Segment definition not found: " ++ name

/-- The failure-handling block shared by the failure joints of `matches`
(src/segment.ts): log the error, report it to the observer with its context,
then resolve via the fallback — whose own throw/rejection is logged and
degrades to `false` — or to plain `false`. -/
def handleFailure (fx : Effects) (e : String) (ctx : ObsContext)
    (fallback : Fallback) : Effects × Bool :=
  let fx1 : Effects :=
    { logged := fx.logged ++ [e], observed := fx.observed ++ [(e, ctx)] }
  match fallback with
  | none => (fx1, false)
  | some f =>
      match f [e] with
      | Except.ok b => (fx1, b)
      | Except.error fe => ({ fx1 with logged := fx1.logged ++ [fe] }, false)

/-- `matches(segmentNameOrFn, onErrorFallback)` from src/segment.ts.  Every
failure joint is caught — no exception escapes — but the call settles
(`some (effects, boolean)`) only when the awaited tree evaluation settles;
when that await suspends forever the call itself never resolves (`none`):
nothing after the await runs, so no logging, no observer call and no result.
On the settled paths: an unregistered name goes straight to the fallback
(or `false`) with no logging and no observer call; a named segment whose
definition call throws is logged and observed with `(segmentName, subject)`
context; a failing tree evaluation of a named segment is first observed with
`(matcherName, segmentName, subject)` context by the per-matcher tracing
wrapper, then logged and observed again with `(segmentName, subject)`
context by the outer handler; ad-hoc failures are logged and observed with
subject-only context; successes produce no observability effects. -/
def matchesModel (subject : Json)
    (segments : String → Option (Except String SegRun))
    (fallback : Fallback) : MatchesArg → Option (Effects × Bool)
  | MatchesArg.adhoc build =>
      match build with
      | Except.error e =>
          some (handleFailure noEffects e (ObsContext.subjOnly subject) fallback)
      | Except.ok awaited =>
          match awaited with
          | none => none
          | some (Except.error e) =>
              some (handleFailure noEffects e (ObsContext.subjOnly subject) fallback)
          | some (Except.ok b) => some (noEffects, b)
  | MatchesArg.named name =>
      match segments name with
      | none =>
          match fallback with
          | none => some (noEffects, false)
          | some f =>
              match f [unregisteredMsg name] with
              | Except.ok b => some (noEffects, b)
              | Except.error fe => some ({ logged := [fe], observed := [] }, false)
      | some (Except.error e) =>
          some (handleFailure noEffects e (ObsContext.segCtx name subject) fallback)
      | some (Except.ok run) =>
          match run.evalOutcome with
          | none => none
          | some (Except.ok b) => some (noEffects, b)
          | some (Except.error e) =>
              some (handleFailure
                { logged := [],
                  observed := [(e, ObsContext.matcherCtx run.matcherName name subject)] }
                e (ObsContext.segCtx name subject) fallback)

/-- Modelled from the claim's words: the single error a failing `matches`
call surfaces (unregistered name, construction throw, or evaluation
failure); `none` when the awaited evaluation — and hence the call — never
settles. -/
def claimOutcome (segments : String → Option (Except String SegRun)) :
    MatchesArg → EvalAwait
  | MatchesArg.adhoc build =>
      match build with
      | Except.error e => some (Except.error e)
      | Except.ok awaited => awaited
  | MatchesArg.named name =>
      match segments name with
      | none => some (Except.error (unregisteredMsg name))
      | some (Except.error e) => some (Except.error e)
      | some (Except.ok run) => run.evalOutcome

/-- Modelled from the claim's words: the failure policy — a success resolves
to its boolean, a failure to `false` without a fallback, to the fallback's
boolean with one, and to `false` when the fallback itself throws/rejects. -/
def claimResolve (fallback : Fallback) : Except String Bool → Bool
  | Except.ok b => b
  | Except.error e =>
      match fallback with
      | none => false
      | some f =>
          match f [e] with
          | Except.ok b => b
          | Except.error _ => false

theorem handleFailure_snd (fx : Effects) (e : String) (ctx : ObsContext)
    (fallback : Fallback) :
    (handleFailure fx e ctx fallback).2 = claimResolve fallback (Except.error e) := by
  cases fallback with
  | none => rfl
  | some f => cases hf : f [e] <;> simp [handleFailure, claimResolve, hf]

/-- A segment map whose one registered segment is backed by a batch matcher
with a throwing evaluator: the tree evaluation's promise is never settled
(see `C1_counterexample_batch_hang` for the mechanism), so its awaited
outcome is `none`. -/
def hangingSegments : String → Option (Except String SegRun) := fun n =>
  if n = "seg" then some (Except.ok { matcherName := "m", evalOutcome := none })
  else none

/-- C1 counterexample: `matches()` does NOT resolve to a boolean for every
argument.  At the concrete input of a registered segment whose batch
matcher's evaluator throws, nothing ever settles the pending resolver:
`DataLoader`'s own flush swallows the throw without invoking any resolver
(first conjunct), `flushAllBatchQueues` skips the `DataLoader`-shaped
batch-context entry entirely (second conjunct, with the one request still
pending by the third), so the awaited evaluation never settles and the
`matches` call itself never resolves — it returns no boolean at all (fourth
conjunct: the model yields `none`). -/
theorem C1_counterexample_batch_hang :
    (dataLoaderFlush pendingLoader throwingEval).2.2 = [] ∧
    (flushAllBatchQueues
        (fun n => if n = "m" then some { evaluateBatch := some throwingEval } else none)
        [("m", BatchEntry.loader pendingLoader)]).2 = [] ∧
    pendingLoader.queue.length = 1 ∧
    matchesModel Json.null hangingSegments none (MatchesArg.named "seg") = none :=
  ⟨rfl, rfl, rfl, by simp [matchesModel, hangingSegments]⟩

/-- C1 (amended): `matches` settles exactly when the awaited tree
evaluation settles — with a throwing batch evaluator it never resolves (it
neither returns nor throws nor rejects; see `C1_counterexample_batch_hang`)
— and whenever it settles it resolves to a boolean without throwing or
rejecting (the model is a total function: every failure joint of the source
is caught), following the failure policy exactly: the evaluation result on
success, `false` on failure without a fallback, the fallback's boolean when
one is supplied, and `false` when the fallback itself throws or rejects. -/
theorem C1_amended_matches_resolution_policy :
    ∀ (subject : Json) (segments : String → Option (Except String SegRun))
      (fallback : Fallback) (arg : MatchesArg),
      (matchesModel subject segments fallback arg).map Prod.snd =
        (claimOutcome segments arg).map (claimResolve fallback) := by
  intro subject segments fallback arg
  cases arg with
  | adhoc build =>
      cases build with
      | error e => simp [matchesModel, claimOutcome, handleFailure_snd]
      | ok awaited =>
          cases awaited with
          | none => rfl
          | some r =>
              cases r with
              | error e => simp [matchesModel, claimOutcome, handleFailure_snd]
              | ok b => rfl
  | named name =>
      cases hseg : segments name with
      | none =>
          cases fallback with
          | none => simp [matchesModel, claimOutcome, claimResolve, hseg]
          | some f =>
              cases hf : f [unregisteredMsg name] <;>
                simp [matchesModel, claimOutcome, claimResolve, hseg, hf]
      | some build =>
          cases build with
          | error e => simp [matchesModel, claimOutcome, hseg, handleFailure_snd]
          | ok run =>
              cases ho : run.evalOutcome with
              | none => simp [matchesModel, claimOutcome, hseg, ho]
              | some r =>
                  cases r with
                  | ok b => simp [matchesModel, claimOutcome, claimResolve, hseg, ho]
                  | error e =>
                      simp [matchesModel, claimOutcome, hseg, ho, handleFailure_snd]

/-- C2 counterexample: an unregistered segment name is a failure surfaced
during a `matches()` call (the claim lists it explicitly), yet the code
returns through the fallback path without invoking the logger or the error
observer at all: the effect log is empty. -/
theorem C2_counterexample_unregistered_not_logged :
    matchesModel Json.null (fun _ => none) none (MatchesArg.named "missing") =
      some (noEffects, false) := rfl

/-- C2 (amended): failures from segment-definition construction, tree
evaluation, and ad-hoc evaluation are logged via `logger.error` exactly once
per failure with contextual metadata; the error observer is invoked once per
failure — with `(segmentName, subject)` context for named construction
failures and `(subject)` context for ad-hoc failures — except that a failing
tree evaluation of a named segment invokes the observer twice for the same
failure: once with `(matcherName, segmentName, subject)` from the tracing
wrapper and once with `(segmentName, subject)` from the outer handler; an
unregistered segment name invokes neither the logger nor the observer; and
successes produce no logging or observer calls.  (Stated for calls without
a fallback; a throwing fallback additionally logs its own error.) -/
theorem C2_amended_observability :
    ∀ (subject : Json) (segments : String → Option (Except String SegRun))
      (name mname e : String) (b : Bool),
      (segments name = none →
        matchesModel subject segments none (MatchesArg.named name) =
          some (noEffects, false)) ∧
      (segments name = some (Except.error e) →
        matchesModel subject segments none (MatchesArg.named name) =
          some ({ logged := [e], observed := [(e, ObsContext.segCtx name subject)] },
            false)) ∧
      (segments name = some (Except.ok
          { matcherName := mname, evalOutcome := some (Except.error e) }) →
        matchesModel subject segments none (MatchesArg.named name) =
          some ({ logged := [e],
                  observed := [(e, ObsContext.matcherCtx mname name subject),
                    (e, ObsContext.segCtx name subject)] }, false)) ∧
      (matchesModel subject segments none
          (MatchesArg.adhoc (Except.ok (some (Except.error e)))) =
        some ({ logged := [e], observed := [(e, ObsContext.subjOnly subject)] },
          false)) ∧
      (segments name = some (Except.ok
          { matcherName := mname, evalOutcome := some (Except.ok b) }) →
        matchesModel subject segments none (MatchesArg.named name) =
          some (noEffects, b)) := by
  intro subject segments name mname e b
  refine ⟨fun h => ?_, fun h => ?_, fun h => ?_, ?_, fun h => ?_⟩
  · simp [matchesModel, h]
  · simp [matchesModel, h, handleFailure, noEffects]
  · simp [matchesModel, h, handleFailure, noEffects]
  · simp [matchesModel, handleFailure, noEffects]
  · simp [matchesModel, h]

/-- A segment map for the C2 witness: one registered segment whose root
matcher `mm` fails with "boom". -/
def witnessSegments : String → Option (Except String SegRun) := fun n =>
  if n = "seg" then
    some (Except.ok { matcherName := "mm", evalOutcome := some (Except.error "boom") })
  else none

/-- A witness for the amended C2 statement at concrete inputs, exhibiting in
particular the double observer invocation for one evaluation failure. -/
theorem C2_witness :
    witnessSegments "seg" =
      some (Except.ok { matcherName := "mm",
                         evalOutcome := some (Except.error "boom") }) ∧
    matchesModel Json.null witnessSegments none (MatchesArg.named "seg") =
      some ({ logged := ["boom"],
              observed := [("boom", ObsContext.matcherCtx "mm" "seg" Json.null),
                ("boom", ObsContext.segCtx "seg" Json.null)] }, false) :=
  ⟨by simp [witnessSegments],
    (C2_amended_observability Json.null witnessSegments "seg" "mm" "boom" true).2.2.1
      (by simp [witnessSegments])⟩

end Tenon
